import Mathlib

/-!
Verification of the Wulf-Forge protocol stack against its specification.

Shallow embedding conventions:
* Python `bytes`/`bytearray` values are `List Nat` (each element a byte value).
* Python arbitrary-precision nonnegative ints are `Nat`; where a Python int can
  be negative we use `Int` (Python `//`-style floor semantics are `Int.fdiv`,
  `x % m` for `m > 0` is `Int.emod`, which is the `%` of `Int` here).
* Python floats are modelled exactly as rationals `ℚ` (the quantization
  formulas of `translation_config.py` are pure arithmetic; we use exact
  arithmetic for them).
* A Python function that can raise is embedded as `Except PyErr _`.
-/

namespace WulfForge

/-! ## Bit-level stream codec, from `src/network/streams.py` -/

/-- State of a `PacketWriter`: the finished bytes (`_buffer`), the byte
currently being filled (`_current_byte`) and how many of its bits are already
used (`_bit_index`, `0..7`). -/
structure PacketWriter where
  buffer : List Nat
  currentByte : Nat
  bitIndex : Nat
deriving Repr, DecidableEq

/-- Fresh writer, as created by `PacketWriter.__init__`. -/
def PacketWriter.init : PacketWriter := ⟨[], 0, 0⟩

/-- One iteration of the loop body of `PacketWriter.write_bits`: OR one bit
into position `7 - _bit_index` of the current byte, pushing the byte into the
buffer once it holds eight bits. -/
def writeBit (w : PacketWriter) (bit : Nat) : PacketWriter :=
  let cb := w.currentByte ||| (bit <<< (7 - w.bitIndex))
  if w.bitIndex + 1 = 8 then ⟨w.buffer ++ [cb], 0, 0⟩
  else ⟨w.buffer, cb, w.bitIndex + 1⟩

/-- `PacketWriter.write_bits(value, num_bits)`: iterate `i` from
`num_bits - 1` down to `0` and write bit `(value >> i) & 1`, MSB first. -/
def PacketWriter.write_bits (w : PacketWriter) (value : Nat) (numBits : Nat) : PacketWriter :=
  (List.range numBits).reverse.foldl (fun acc i => writeBit acc ((value >>> i) &&& 1)) w

/-- `PacketWriter.write_bool`: one bit. -/
def PacketWriter.write_bool (w : PacketWriter) (value : Bool) : PacketWriter :=
  w.write_bits (if value then 1 else 0) 1

/-- `PacketWriter.write_byte`: eight bits. -/
def PacketWriter.write_byte (w : PacketWriter) (value : Nat) : PacketWriter :=
  w.write_bits value 8

/-- `PacketWriter.write_int16`: sixteen bits, the source masks with `0xFFFF`. -/
def PacketWriter.write_int16 (w : PacketWriter) (value : Nat) : PacketWriter :=
  w.write_bits (value &&& 0xFFFF) 16

/-- `PacketWriter.write_int32`: thirty-two bits, the source masks with
`0xFFFFFFFF`. -/
def PacketWriter.write_int32 (w : PacketWriter) (value : Nat) : PacketWriter :=
  w.write_bits (value &&& 0xFFFFFFFF) 32

/-- `PacketWriter._flush_bits`: push the partially filled byte, if any. -/
def PacketWriter.flushBits (w : PacketWriter) : PacketWriter :=
  if 0 < w.bitIndex then ⟨w.buffer ++ [w.currentByte], 0, 0⟩ else w

/-- `PacketWriter.get_bytes`: flush, then return the buffer. -/
def PacketWriter.get_bytes (w : PacketWriter) : List Nat :=
  w.flushBits.buffer

/-- `PacketWriter.write_string`: encode to ASCII with `errors='replace'`
(every code point `≥ 128` becomes `'?'` = 63), append a NUL, write the byte
count (including the NUL) as a 16-bit big-endian int, then write each byte. -/
def PacketWriter.write_string (w : PacketWriter) (text : List Nat) : PacketWriter :=
  let raw_data := (text.map (fun c => if c < 128 then c else 63)) ++ [0]
  let w1 := w.write_int16 raw_data.length
  raw_data.foldl (fun acc b => acc.write_byte b) w1

/-- State of a `PacketReader`: the buffer (`_data`), the byte cursor
(`_byte_pos`) and the bit cursor within that byte (`_bit_pos`, `0..7`). -/
structure PacketReader where
  data : List Nat
  bytePos : Nat
  bitPos : Nat
deriving Repr, DecidableEq

/-- Fresh reader over a buffer, as created by `PacketReader.__init__`. -/
def PacketReader.init (data : List Nat) : PacketReader := ⟨data, 0, 0⟩

/-- The loop of `PacketReader.read_bits` carrying the accumulated `value`.
When the byte cursor has reached the end of the buffer the whole read returns
`0` (the accumulator is discarded, exactly as the early `return 0` in the
source does), leaving the cursor where it stopped. -/
def readBitsAux : PacketReader → Nat → Nat → Nat × PacketReader
  | r, 0, value => (value, r)
  | r, n + 1, value =>
    if r.data.length ≤ r.bytePos then (0, r)
    else
      let current_byte_val := r.data.getD r.bytePos 0
      let bit := (current_byte_val >>> (7 - r.bitPos)) &&& 1
      let value1 := (value <<< 1) ||| bit
      let r1 : PacketReader :=
        if r.bitPos + 1 = 8 then ⟨r.data, r.bytePos + 1, 0⟩
        else ⟨r.data, r.bytePos, r.bitPos + 1⟩
      readBitsAux r1 n value1

/-- `PacketReader.read_bits(num_bits)`: returns the value and the advanced
reader. -/
def PacketReader.read_bits (r : PacketReader) (numBits : Nat) : Nat × PacketReader :=
  readBitsAux r numBits 0

/-- Reading a sequence of bit widths in order, returning the values read
(`read_bits` applied repeatedly, threading the reader). -/
def readWidths : PacketReader → List Nat → List Nat
  | _, [] => []
  | r, n :: ns =>
    let res := r.read_bits n
    res.1 :: readWidths res.2 ns

/-! ## Bit-list abstraction used to reason about the codec -/

/-- MSB-first list of the low `n` bits of `v` (bit `n-1` first). -/
def natBits (v n : Nat) : List Nat :=
  (List.range n).reverse.map (fun i => (v >>> i) &&& 1)

/-- Value of an MSB-first bit list. -/
def bitsToNat (l : List Nat) : Nat := l.foldl (fun a b => 2 * a + b) 0

/-- Bit expansion of a byte list, eight MSB-first bits per byte. -/
def allBits (bytes : List Nat) : List Nat :=
  (bytes.map (fun b => natBits b 8)).flatten

theorem natBits_length (v n : Nat) : (natBits v n).length = n := by
  simp [natBits]

theorem natBits_le_one (v n : Nat) : ∀ b ∈ natBits v n, b ≤ 1 := by
  intro b hb
  simp only [natBits, List.mem_map] at hb
  obtain ⟨i, _, rfl⟩ := hb
  have : (v >>> i) &&& 1 = (v >>> i) % 2 := Nat.and_one_is_mod _
  omega

theorem natBits_succ (v n : Nat) :
    natBits v (n + 1) = ((v >>> n) &&& 1) :: natBits v n := by
  simp [natBits, List.range_succ]

theorem bitsToNat_from (a : Nat) (l : List Nat) :
    l.foldl (fun a b => 2 * a + b) a = a * 2 ^ l.length + bitsToNat l := by
  induction l generalizing a with
  | nil => simp [bitsToNat]
  | cons x l ih =>
    simp only [List.foldl_cons, List.length_cons, bitsToNat]
    rw [ih (2 * a + x), ih (2 * 0 + x)]
    ring

theorem bitsToNat_cons (b : Nat) (l : List Nat) :
    bitsToNat (b :: l) = b * 2 ^ l.length + bitsToNat l := by
  have h := bitsToNat_from (2 * 0 + b) l
  simpa [bitsToNat] using h

theorem bitsToNat_append (l₁ l₂ : List Nat) :
    bitsToNat (l₁ ++ l₂) = bitsToNat l₁ * 2 ^ l₂.length + bitsToNat l₂ := by
  unfold bitsToNat
  rw [List.foldl_append]
  exact bitsToNat_from _ l₂

theorem bitsToNat_lt (l : List Nat) (h : ∀ b ∈ l, b ≤ 1) :
    bitsToNat l < 2 ^ l.length := by
  induction l with
  | nil => simp [bitsToNat]
  | cons x l ih =>
    rw [bitsToNat_cons]
    have hx : x ≤ 1 := h x (by simp)
    have hl : bitsToNat l < 2 ^ l.length := ih (fun b hb => h b (by simp [hb]))
    have : x * 2 ^ l.length ≤ 2 ^ l.length := by
      calc x * 2 ^ l.length ≤ 1 * 2 ^ l.length := by
            exact Nat.mul_le_mul_right _ hx
        _ = 2 ^ l.length := by ring
    simp only [List.length_cons, pow_succ]
    omega

theorem shiftRight_and_one (v i : Nat) : (v >>> i) &&& 1 = v / 2 ^ i % 2 := by
  rw [Nat.shiftRight_eq_div_pow, Nat.and_one_is_mod]

theorem mod_pow_div_pow (v a b : Nat) : v % 2 ^ (a + b) / 2 ^ a = v / 2 ^ a % 2 ^ b := by
  rcases Nat.div_add_mod v (2 ^ (a + b)) with h
  set q := v / 2 ^ (a + b) with hq
  set r := v % 2 ^ (a + b) with hr
  have hrlt : r < 2 ^ (a + b) := Nat.mod_lt _ (Nat.pos_pow_of_pos _ (by norm_num))
  have hv : v = 2 ^ a * (2 ^ b * q) + r := by
    rw [← h, pow_add]; ring
  have hdiv : v / 2 ^ a = 2 ^ b * q + r / 2 ^ a := by
    rw [hv, Nat.mul_add_div (Nat.pos_pow_of_pos _ (by norm_num))]
  have hrd : r / 2 ^ a < 2 ^ b := by
    apply Nat.div_lt_of_lt_mul
    rw [← pow_add]
    exact hrlt
  rw [hdiv, Nat.mul_add_mod, Nat.mod_eq_of_lt hrd]

theorem mod_pow_bit (v n i : Nat) (h : i < n) :
    v % 2 ^ n / 2 ^ i % 2 = v / 2 ^ i % 2 := by
  have hn : n = i + (n - i) := by omega
  rw [hn, mod_pow_div_pow]
  have : (2 : Nat) ∣ 2 ^ (n - i) := dvd_pow_self 2 (by omega)
  exact Nat.mod_mod_of_dvd _ this

theorem natBits_mod (v n : Nat) : natBits (v % 2 ^ n) n = natBits v n := by
  unfold natBits
  apply List.map_congr_left
  intro i hi
  have hin : i < n := by
    simp only [List.mem_reverse, List.mem_range] at hi
    exact hi
  rw [shiftRight_and_one, shiftRight_and_one, mod_pow_bit v n i hin]

theorem bitsToNat_natBits (v n : Nat) : bitsToNat (natBits v n) = v % 2 ^ n := by
  induction n with
  | zero => simp [natBits, bitsToNat, Nat.mod_one]
  | succ n ih =>
    rw [natBits_succ, bitsToNat_cons, natBits_length, ih, shiftRight_and_one]
    have h3 := Nat.div_add_mod (v % 2 ^ (n + 1)) (2 ^ n)
    have h4 : v % 2 ^ (n + 1) % 2 ^ n = v % 2 ^ n :=
      Nat.mod_mod_of_dvd _ (pow_dvd_pow 2 (by omega))
    have h5 : v % 2 ^ (n + 1) / 2 ^ n = v / 2 ^ n % 2 ^ 1 := mod_pow_div_pow v n 1
    rw [h4, h5, pow_one] at h3
    rw [← h3]
    ring

theorem natBits_bitsToNat (l : List Nat) (h : ∀ b ∈ l, b ≤ 1) :
    natBits (bitsToNat l) l.length = l := by
  induction l with
  | nil => simp [natBits, bitsToNat]
  | cons b q ih =>
    have hb : b ≤ 1 := h b (by simp)
    have hq : ∀ x ∈ q, x ≤ 1 := fun x hx => h x (by simp [hx])
    have hqlt : bitsToNat q < 2 ^ q.length := bitsToNat_lt q hq
    rw [List.length_cons, natBits_succ, bitsToNat_cons]
    have hhead : (b * 2 ^ q.length + bitsToNat q) >>> q.length &&& 1 = b := by
      rw [Nat.shiftRight_eq_div_pow, Nat.and_one_is_mod]
      have : (b * 2 ^ q.length + bitsToNat q) / 2 ^ q.length = b := by
        rw [Nat.mul_comm b, Nat.mul_add_div (Nat.pos_pow_of_pos _ (by norm_num)),
          Nat.div_eq_of_lt hqlt]
        omega
      rw [this]
      omega
    have htail : natBits (b * 2 ^ q.length + bitsToNat q) q.length = q := by
      rw [← natBits_mod]
      have : (b * 2 ^ q.length + bitsToNat q) % 2 ^ q.length = bitsToNat q := by
        rw [Nat.mul_comm b, Nat.mul_add_mod, Nat.mod_eq_of_lt hqlt]
      rw [this]
      exact ih hq
    rw [hhead, htail]

/-! ## Writer invariant: a writer state holds finished bytes plus pending bits -/

/-- Coupling invariant between a writer state and its abstract content: the
finished bytes `bs` and the pending (fewer than eight) bits `p` of the byte
currently being filled, which occupy the high end of `currentByte`. -/
def WriterRep (w : PacketWriter) (bs p : List Nat) : Prop :=
  w.buffer = bs ∧ w.bitIndex = p.length ∧ p.length < 8 ∧ (∀ b ∈ p, b ≤ 1) ∧
    w.currentByte = bitsToNat p * 2 ^ (8 - p.length)

theorem writerRep_init : WriterRep PacketWriter.init [] [] := by
  refine ⟨rfl, rfl, by norm_num, by simp, ?_⟩
  simp [PacketWriter.init, bitsToNat]

theorem writeBit_rep_mid {w : PacketWriter} {bs p : List Nat} {b : Nat}
    (h : WriterRep w bs p) (hb : b ≤ 1) (hlen : p.length < 7) :
    WriterRep (writeBit w b) bs (p ++ [b]) := by
  obtain ⟨h1, h2, h3, h4, h5⟩ := h
  have hcond : ¬ (w.bitIndex + 1 = 8) := by omega
  have hcb : w.currentByte ||| (b <<< (7 - w.bitIndex)) =
      bitsToNat (p ++ [b]) * 2 ^ (8 - (p.length + 1)) := by
    rw [h5, h2, Nat.shiftLeft_eq, bitsToNat_append]
    have hb1 : bitsToNat [b] = b := by simp [bitsToNat]
    have hlt : b * 2 ^ (7 - p.length) < 2 ^ (8 - p.length) := by
      have : b * 2 ^ (7 - p.length) ≤ 1 * 2 ^ (7 - p.length) :=
        Nat.mul_le_mul_right _ hb
      have hpow : 2 ^ (7 - p.length) < 2 ^ (8 - p.length) :=
        Nat.pow_lt_pow_right (by norm_num) (by omega)
      omega
    have hor : 2 ^ (8 - p.length) * bitsToNat p ||| b * 2 ^ (7 - p.length) =
        2 ^ (8 - p.length) * bitsToNat p + b * 2 ^ (7 - p.length) :=
      (Nat.mul_add_lt_is_or hlt _).symm
    rw [Nat.mul_comm (bitsToNat p), hor, hb1]
    have h8 : 8 - p.length = (7 - p.length) + 1 := by omega
    have h7 : 8 - (p.length + 1) = 7 - p.length := by omega
    rw [h8, h7, List.length_singleton, pow_succ, pow_one]
    ring
  refine ⟨?_, ?_, ?_, ?_, ?_⟩
  · simp only [writeBit, hcond, if_false]
    exact h1
  · simp only [writeBit, hcond, if_false, List.length_append, List.length_singleton]
    omega
  · simp only [List.length_append, List.length_singleton]
    omega
  · intro x hx
    rcases List.mem_append.mp hx with hx | hx
    · exact h4 x hx
    · simp only [List.mem_singleton] at hx
      omega
  · simp only [writeBit, hcond, if_false, List.length_append, List.length_singleton]
    exact hcb

theorem writeBit_rep_full {w : PacketWriter} {bs p : List Nat} {b : Nat}
    (h : WriterRep w bs p) (hb : b ≤ 1) (hlen : p.length = 7) :
    WriterRep (writeBit w b) (bs ++ [bitsToNat (p ++ [b])]) [] := by
  obtain ⟨h1, h2, h3, h4, h5⟩ := h
  have hcond : w.bitIndex + 1 = 8 := by omega
  have hcb : w.currentByte ||| (b <<< (7 - w.bitIndex)) = bitsToNat (p ++ [b]) := by
    rw [h5, h2, Nat.shiftLeft_eq, bitsToNat_append, hlen]
    have hb1 : bitsToNat [b] = b := by simp [bitsToNat]
    norm_num
    have hor : 2 ^ 1 * bitsToNat p ||| b * 2 ^ 0 =
        2 ^ 1 * bitsToNat p + b * 2 ^ 0 :=
      (Nat.mul_add_lt_is_or (by omega) _).symm
    have hl : bitsToNat p * 2 = 2 ^ 1 * bitsToNat p := by ring
    have hr : b * 2 ^ 0 = b := by ring
    rw [hb1, hl, ← hr]
    rw [hor]
  refine ⟨?_, ?_, by norm_num, by simp, ?_⟩
  · simp only [writeBit, hcond, if_true, h1, hcb]
  · simp [writeBit, hcond]
  · simp [writeBit, hcond, bitsToNat]

/-- `write_bits` as a fold of single-bit writes over an explicit bit list. -/
def writeBitList (w : PacketWriter) (l : List Nat) : PacketWriter :=
  l.foldl writeBit w

theorem write_bits_eq_writeBitList (w : PacketWriter) (v n : Nat) :
    w.write_bits v n = writeBitList w (natBits v n) := by
  unfold PacketWriter.write_bits writeBitList natBits
  rw [List.foldl_map]

theorem allBits_append (l₁ l₂ : List Nat) :
    allBits (l₁ ++ l₂) = allBits l₁ ++ allBits l₂ := by
  simp [allBits]

theorem allBits_singleton (x : Nat) : allBits [x] = natBits x 8 := by
  simp [allBits]

theorem allBits_length (l : List Nat) : (allBits l).length = 8 * l.length := by
  induction l with
  | nil => simp [allBits]
  | cons x l ih =>
    have : allBits (x :: l) = natBits x 8 ++ allBits l := by
      simp [allBits]
    rw [this, List.length_append, natBits_length, ih, List.length_cons]
    ring

theorem writeBitList_rep : ∀ (l : List Nat) (w : PacketWriter) (bs p : List Nat),
    (∀ b ∈ l, b ≤ 1) → WriterRep w bs p →
    ∃ bs2 p2, WriterRep (writeBitList w l) bs2 p2 ∧
      allBits bs2 ++ p2 = allBits bs ++ p ++ l := by
  intro l
  induction l with
  | nil =>
    intro w bs p _ h
    exact ⟨bs, p, h, by simp⟩
  | cons b l ih =>
    intro w bs p hb h
    have hb1 : b ≤ 1 := hb b (by simp)
    have hbl : ∀ x ∈ l, x ≤ 1 := fun x hx => hb x (by simp [hx])
    have hlt8 : p.length < 8 := h.2.2.1
    have hstep : writeBitList w (b :: l) = writeBitList (writeBit w b) l := by
      simp [writeBitList]
    rcases Nat.lt_or_ge p.length 7 with hlen | hlen
    · have hmid := writeBit_rep_mid h hb1 hlen
      obtain ⟨bs2, p2, hrep, heq⟩ := ih (writeBit w b) bs (p ++ [b]) hbl hmid
      refine ⟨bs2, p2, by rw [hstep]; exact hrep, ?_⟩
      rw [heq]
      simp
    · have hlen7 : p.length = 7 := by omega
      have hfull := writeBit_rep_full h hb1 hlen7
      obtain ⟨bs2, p2, hrep, heq⟩ := ih (writeBit w b) (bs ++ [bitsToNat (p ++ [b])]) [] hbl hfull
      refine ⟨bs2, p2, by rw [hstep]; exact hrep, ?_⟩
      rw [heq, allBits_append, allBits_singleton]
      have hpb : ∀ x ∈ p ++ [b], x ≤ 1 := by
        intro x hx
        rcases List.mem_append.mp hx with hx | hx
        · exact h.2.2.2.1 x hx
        · simp only [List.mem_singleton] at hx
          omega
      have hlen8 : (p ++ [b]).length = 8 := by
        simp [hlen7]
      have : natBits (bitsToNat (p ++ [b])) 8 = p ++ [b] := by
        rw [← hlen8]
        exact natBits_bitsToNat _ hpb
      rw [this]
      simp

theorem write_bits_rep {w : PacketWriter} {bs p : List Nat} (v n : Nat)
    (h : WriterRep w bs p) :
    ∃ bs2 p2, WriterRep (w.write_bits v n) bs2 p2 ∧
      allBits bs2 ++ p2 = allBits bs ++ p ++ natBits v n := by
  rw [write_bits_eq_writeBitList]
  exact writeBitList_rep _ _ _ _ (natBits_le_one v n) h

theorem natBits_peel_lsb (v n : Nat) :
    natBits v (n + 1) = natBits (v >>> 1) n ++ [v &&& 1] := by
  unfold natBits
  rw [List.range_succ_eq_map, List.reverse_cons, ← List.map_reverse, List.map_append,
    List.map_map]
  congr 1
  · apply List.map_congr_left
    intro i _
    simp only [Function.comp_apply]
    rw [← Nat.shiftRight_add, Nat.add_comm 1 i]

theorem natBits_mul_pow (m : Nat) : ∀ (k j : Nat),
    natBits (m * 2 ^ k) (j + k) = natBits m j ++ List.replicate k 0 := by
  intro k
  induction k with
  | zero => simp
  | succ k ih =>
    intro j
    have hsucc : j + (k + 1) = (j + k) + 1 := by omega
    rw [hsucc, natBits_peel_lsb]
    have hsh : (m * 2 ^ (k + 1)) >>> 1 = m * 2 ^ k := by
      rw [Nat.shiftRight_eq_div_pow, pow_one, pow_succ, ← Nat.mul_assoc,
        Nat.mul_div_cancel _ (by norm_num)]
    have hand : (m * 2 ^ (k + 1)) &&& 1 = 0 := by
      rw [Nat.and_one_is_mod, pow_succ, ← Nat.mul_assoc, Nat.mul_mod_left]
    rw [hsh, hand, ih j, List.append_assoc, ← List.replicate_succ' k 0]

theorem get_bytes_rep {w : PacketWriter} {bs p : List Nat} (h : WriterRep w bs p) :
    allBits w.get_bytes = allBits bs ++ p ++ List.replicate (8 - p.length) 0 ∨
      (p = [] ∧ allBits w.get_bytes = allBits bs) := by
  obtain ⟨h1, h2, h3, h4, h5⟩ := h
  rcases Nat.eq_zero_or_pos p.length with hp | hp
  · right
    have hpnil : p = [] := List.length_eq_zero.mp hp
    refine ⟨hpnil, ?_⟩
    have : ¬ 0 < w.bitIndex := by omega
    simp [PacketWriter.get_bytes, PacketWriter.flushBits, this, h1]
  · left
    have hcond : 0 < w.bitIndex := by omega
    have hbuf : w.get_bytes = bs ++ [w.currentByte] := by
      simp [PacketWriter.get_bytes, PacketWriter.flushBits, hcond, h1]
    rw [hbuf, allBits_append, allBits_singleton, h5]
    have h8 : p.length + (8 - p.length) = 8 := by omega
    have hnb := natBits_mul_pow (bitsToNat p) (8 - p.length) p.length
    rw [h8] at hnb
    rw [hnb, natBits_bitsToNat p h4]
    simp

/-! ## Byte-aligned writes -/

theorem writerRep_nil_eq {w : PacketWriter} {bs : List Nat} (h : WriterRep w bs []) :
    w = ⟨bs, 0, 0⟩ := by
  obtain ⟨h1, h2, h3, h4, h5⟩ := h
  simp only [List.length_nil] at h2
  simp only [bitsToNat, List.foldl_nil, Nat.zero_mul] at h5
  cases w
  simp_all

theorem writerRep_aligned (buf : List Nat) : WriterRep ⟨buf, 0, 0⟩ buf [] :=
  ⟨rfl, rfl, by norm_num, by simp, by simp [bitsToNat]⟩

theorem writeBitList_aligned8 (buf : List Nat) (l : List Nat) (hlen : l.length = 8)
    (hb : ∀ b ∈ l, b ≤ 1) :
    writeBitList ⟨buf, 0, 0⟩ l = ⟨buf ++ [bitsToNat l], 0, 0⟩ := by
  rcases l with _ | ⟨b0, _ | ⟨b1, _ | ⟨b2, _ | ⟨b3, _ | ⟨b4, _ | ⟨b5, _ | ⟨b6, _ | ⟨b7, rest⟩⟩⟩⟩⟩⟩⟩⟩ <;>
      simp only [List.length_cons, List.length_nil] at hlen <;> try omega
  have hrest : rest = [] := List.length_eq_zero.mp (by omega)
  subst hrest
  have h0 : b0 ≤ 1 := hb b0 (by simp)
  have h1 : b1 ≤ 1 := hb b1 (by simp)
  have h2 : b2 ≤ 1 := hb b2 (by simp)
  have h3 : b3 ≤ 1 := hb b3 (by simp)
  have h4 : b4 ≤ 1 := hb b4 (by simp)
  have h5 : b5 ≤ 1 := hb b5 (by simp)
  have h6 : b6 ≤ 1 := hb b6 (by simp)
  have h7 : b7 ≤ 1 := hb b7 (by simp)
  have r0 : WriterRep ⟨buf, 0, 0⟩ buf [] := writerRep_aligned buf
  have r1 := writeBit_rep_mid r0 h0 (by simp)
  have r2 := writeBit_rep_mid r1 h1 (by simp)
  have r3 := writeBit_rep_mid r2 h2 (by simp)
  have r4 := writeBit_rep_mid r3 h3 (by simp)
  have r5 := writeBit_rep_mid r4 h4 (by simp)
  have r6 := writeBit_rep_mid r5 h5 (by simp)
  have r7 := writeBit_rep_mid r6 h6 (by simp)
  have r8 := writeBit_rep_full r7 h7 (by simp)
  have hfinal := writerRep_nil_eq r8
  simp only [writeBitList, List.foldl_cons, List.foldl_nil]
  simpa using hfinal

theorem write_bits_aligned8 (buf : List Nat) (v : Nat) :
    PacketWriter.write_bits ⟨buf, 0, 0⟩ v 8 = ⟨buf ++ [v % 256], 0, 0⟩ := by
  rw [write_bits_eq_writeBitList,
    writeBitList_aligned8 _ _ (natBits_length v 8) (natBits_le_one v 8), bitsToNat_natBits]
  norm_num

theorem natBits_add (v m n : Nat) :
    natBits v (m + n) = natBits (v >>> n) m ++ natBits v n := by
  induction m with
  | zero => simp [natBits]
  | succ m ih =>
    have hadd : m + 1 + n = (m + n) + 1 := by omega
    rw [hadd, natBits_succ, natBits_succ, List.cons_append, ih]
    have hhead : v >>> (m + n) = (v >>> n) >>> m := by
      rw [← Nat.shiftRight_add, Nat.add_comm n m]
    rw [hhead]

theorem write_bits_split (w : PacketWriter) (v m n : Nat) :
    w.write_bits v (m + n) = (w.write_bits (v >>> n) m).write_bits v n := by
  rw [write_bits_eq_writeBitList, write_bits_eq_writeBitList, write_bits_eq_writeBitList,
    natBits_add]
  simp [writeBitList]

/-- Big-endian byte expansion of the low `8 * k` bits of `v`. -/
def bytesOfNat (v : Nat) : Nat → List Nat
  | 0 => []
  | k + 1 => (v >>> (8 * k)) % 256 :: bytesOfNat v k

theorem write_bits_bytes (v : Nat) : ∀ (k : Nat) (buf : List Nat),
    PacketWriter.write_bits ⟨buf, 0, 0⟩ v (8 * k) = ⟨buf ++ bytesOfNat v k, 0, 0⟩ := by
  intro k
  induction k with
  | zero =>
    intro buf
    simp [PacketWriter.write_bits, bytesOfNat]
  | succ k ih =>
    intro buf
    have hsplit : 8 * (k + 1) = 8 + 8 * k := by ring
    rw [hsplit, write_bits_split, write_bits_aligned8, ih]
    simp [bytesOfNat]

theorem write_byte_aligned (buf : List Nat) (v : Nat) :
    PacketWriter.write_byte ⟨buf, 0, 0⟩ v = ⟨buf ++ [v % 256], 0, 0⟩ :=
  write_bits_aligned8 buf v

theorem write_int16_aligned (buf : List Nat) (v : Nat) :
    PacketWriter.write_int16 ⟨buf, 0, 0⟩ v = ⟨buf ++ [v / 256 % 256, v % 256], 0, 0⟩ := by
  unfold PacketWriter.write_int16
  have hmask : v &&& 0xFFFF = v % 2 ^ 16 := by
    have : (0xFFFF : Nat) = 2 ^ 16 - 1 := by norm_num
    rw [this, Nat.and_pow_two_sub_one_eq_mod]
  have h16 : (16 : Nat) = 8 * 2 := by norm_num
  rw [hmask, h16, write_bits_bytes]
  have hb1 : (v % 2 ^ 16) >>> (8 * 1) % 256 = v / 256 % 256 := by
    rw [Nat.shiftRight_eq_div_pow]
    have := mod_pow_div_pow v 8 8
    norm_num at this ⊢
    rw [this, Nat.mod_mod_of_dvd _ dvd_rfl]
  have hb0 : (v % 2 ^ 16) >>> (8 * 0) % 256 = v % 256 := by
    rw [Nat.shiftRight_eq_div_pow]
    norm_num
  simp only [bytesOfNat, hb1, hb0]

theorem write_int32_aligned (buf : List Nat) (v : Nat) :
    PacketWriter.write_int32 ⟨buf, 0, 0⟩ v =
      ⟨buf ++ [v / 2 ^ 24 % 256, v / 2 ^ 16 % 256, v / 2 ^ 8 % 256, v % 256], 0, 0⟩ := by
  unfold PacketWriter.write_int32
  have hmask : v &&& 0xFFFFFFFF = v % 2 ^ 32 := by
    have : (0xFFFFFFFF : Nat) = 2 ^ 32 - 1 := by norm_num
    rw [this, Nat.and_pow_two_sub_one_eq_mod]
  have h32 : (32 : Nat) = 8 * 4 := by norm_num
  rw [hmask, h32, write_bits_bytes]
  have key : ∀ a b : Nat, a + b = 32 → 8 ≤ b →
      v % 2 ^ 32 / 2 ^ a % 256 = v / 2 ^ a % 256 := by
    intro a b hab hb8
    have h := mod_pow_div_pow v a b
    rw [hab] at h
    rw [h]
    have h256 : (256 : Nat) = 2 ^ 8 := by norm_num
    conv_lhs => rw [h256]
    conv_rhs => rw [h256]
    exact Nat.mod_mod_of_dvd _ (pow_dvd_pow 2 hb8)
  have e3 : (v % 2 ^ 32) >>> (8 * 3) % 256 = v / 2 ^ 24 % 256 := by
    rw [Nat.shiftRight_eq_div_pow]
    exact key 24 8 (by norm_num) (by norm_num)
  have e2 : (v % 2 ^ 32) >>> (8 * 2) % 256 = v / 2 ^ 16 % 256 := by
    rw [Nat.shiftRight_eq_div_pow]
    exact key 16 16 (by norm_num) (by norm_num)
  have e1 : (v % 2 ^ 32) >>> (8 * 1) % 256 = v / 2 ^ 8 % 256 := by
    rw [Nat.shiftRight_eq_div_pow]
    exact key 8 24 (by norm_num) (by norm_num)
  have e0 : (v % 2 ^ 32) >>> (8 * 0) % 256 = v % 256 := by
    rw [Nat.shiftRight_eq_div_pow]
    have := key 0 32 (by norm_num) (by norm_num)
    simpa using this
  simp only [bytesOfNat, e3, e2, e1, e0]

theorem foldl_write_byte_aligned : ∀ (l : List Nat) (buf : List Nat),
    l.foldl (fun acc b => acc.write_byte b) (⟨buf, 0, 0⟩ : PacketWriter) =
      ⟨buf ++ l.map (· % 256), 0, 0⟩ := by
  intro l
  induction l with
  | nil => intro buf; simp
  | cons x l ih =>
    intro buf
    simp only [List.foldl_cons, List.map_cons]
    rw [write_byte_aligned, ih]
    simp

theorem get_bytes_aligned (buf : List Nat) :
    PacketWriter.get_bytes ⟨buf, 0, 0⟩ = buf := by
  simp [PacketWriter.get_bytes, PacketWriter.flushBits]

/-! ## Reader lemmas -/

theorem allBits_cons (d : Nat) (rest : List Nat) :
    allBits (d :: rest) = natBits d 8 ++ allBits rest := by
  simp [allBits]

theorem natBits_eight (d : Nat) :
    natBits d 8 = [d >>> 7 &&& 1, d >>> 6 &&& 1, d >>> 5 &&& 1, d >>> 4 &&& 1,
      d >>> 3 &&& 1, d >>> 2 &&& 1, d >>> 1 &&& 1, d >>> 0 &&& 1] := by
  simp [natBits, List.range_succ]

theorem allBits_getD : ∀ (data : List Nat) (i j : Nat), j < 8 → i < data.length →
    (allBits data).getD (8 * i + j) 0 = (data.getD i 0) >>> (7 - j) &&& 1 := by
  intro data
  induction data with
  | nil =>
    intro i j _ hi
    simp at hi
  | cons d rest ih =>
    intro i j hj hi
    rw [allBits_cons]
    cases i with
    | zero =>
      rw [List.getD_append _ _ _ _ (by rw [natBits_length]; omega)]
      rw [natBits_eight]
      simp only [Nat.mul_zero, Nat.zero_add, List.getD_cons_zero, List.getD_cons_succ]
      interval_cases j <;> rfl
    | succ i =>
      have hlen8 : (natBits d 8).length = 8 := natBits_length d 8
      have hge : (natBits d 8).length ≤ 8 * (i + 1) + j := by omega
      rw [List.getD_append_right _ _ _ _ hge]
      have hsub : 8 * (i + 1) + j - (natBits d 8).length = 8 * i + j := by omega
      rw [hsub, List.getD_cons_succ]
      exact ih i j hj (by simpa using hi)

theorem readBitsAux_spec (data : List Nat) :
    ∀ (n i j acc : Nat), j < 8 → 8 * i + j + n ≤ 8 * data.length →
    readBitsAux ⟨data, i, j⟩ n acc =
      (acc * 2 ^ n + bitsToNat (((allBits data).drop (8 * i + j)).take n),
       ⟨data, (8 * i + j + n) / 8, (8 * i + j + n) % 8⟩) := by
  intro n
  induction n with
  | zero =>
    intro i j acc hj _
    simp [readBitsAux, bitsToNat]
    omega
  | succ n ih =>
    intro i j acc hj hle
    have hi : i < data.length := by omega
    have hend : ¬ (data.length ≤ i) := by omega
    have hablen : (allBits data).length = 8 * data.length := allBits_length data
    have hpos : 8 * i + j < (allBits data).length := by omega
    set bit := (data.getD i 0) >>> (7 - j) &&& 1 with hbitdef
    have hbit1 : bit ≤ 1 := by
      rw [hbitdef, Nat.and_one_is_mod]
      omega
    have hval : ∀ acc1 : Nat, (acc1 <<< 1) ||| bit = 2 * acc1 + bit := by
      intro acc1
      rw [Nat.shiftLeft_eq, pow_one]
      have := Nat.mul_add_lt_is_or (b := bit) (i := 1) (by omega) acc1
      have h2 : 2 ^ 1 * acc1 = acc1 * 2 := by ring
      rw [h2] at this
      rw [← this]
      ring
    have hgetE : (allBits data)[8 * i + j] = bit := by
      have := allBits_getD data i j hj hi
      rw [List.getD_eq_getElem _ _ hpos] at this
      exact this
    have hdropcons : (allBits data).drop (8 * i + j) =
        bit :: (allBits data).drop (8 * i + j + 1) := by
      rw [List.drop_eq_getElem_cons hpos, hgetE]
    have htake : ((allBits data).drop (8 * i + j)).take (n + 1) =
        bit :: ((allBits data).drop (8 * i + j + 1)).take n := by
      rw [hdropcons, List.take_succ_cons]
    have htlen : (((allBits data).drop (8 * i + j + 1)).take n).length = n := by
      rw [List.length_take, List.length_drop]
      omega
    have hbits : bitsToNat (((allBits data).drop (8 * i + j)).take (n + 1)) =
        bit * 2 ^ n + bitsToNat (((allBits data).drop (8 * i + j + 1)).take n) := by
      rw [htake, bitsToNat_cons, htlen]
    -- one unfolding step of the loop
    rcases Nat.lt_or_ge (j + 1) 8 with hj8 | hj8
    · have hcond : ¬ (j + 1 = 8) := by omega
      have hstep : readBitsAux ⟨data, i, j⟩ (n + 1) acc =
          readBitsAux ⟨data, i, j + 1⟩ n ((acc <<< 1) ||| bit) := by
        simp only [readBitsAux, hend, if_false, hcond]
      rw [hstep, hval, ih (i) (j + 1) (2 * acc + bit) (by omega) (by omega)]
      have hpos1 : 8 * i + (j + 1) = 8 * i + j + 1 := by omega
      rw [hpos1, hbits]
      have hfin : 8 * i + j + 1 + n = 8 * i + j + (n + 1) := by omega
      rw [hfin]
      have : (2 * acc + bit) * 2 ^ n +
          bitsToNat (((allBits data).drop (8 * i + j + 1)).take n) =
          acc * 2 ^ (n + 1) + (bit * 2 ^ n +
            bitsToNat (((allBits data).drop (8 * i + j + 1)).take n)) := by
        ring
      rw [this]
    · have hj7 : j = 7 := by omega
      subst hj7
      have hstep : readBitsAux ⟨data, i, 7⟩ (n + 1) acc =
          readBitsAux ⟨data, i + 1, 0⟩ n ((acc <<< 1) ||| bit) := by
        simp only [readBitsAux, hend, if_false]
        rfl
      rw [hstep, hval, ih (i + 1) 0 (2 * acc + bit) (by omega) (by omega)]
      have hpos1 : 8 * (i + 1) + 0 = 8 * i + 7 + 1 := by omega
      rw [hpos1, hbits]
      have hfin : 8 * i + 7 + 1 + n = 8 * i + 7 + (n + 1) := by omega
      rw [hfin]
      have : (2 * acc + bit) * 2 ^ n +
          bitsToNat (((allBits data).drop (8 * i + 7 + 1)).take n) =
          acc * 2 ^ (n + 1) + (bit * 2 ^ n +
            bitsToNat (((allBits data).drop (8 * i + 7 + 1)).take n)) := by
        ring
      rw [this]

theorem read_bits_spec (data : List Nat) (n i j : Nat) (hj : j < 8)
    (hle : 8 * i + j + n ≤ 8 * data.length) :
    PacketReader.read_bits ⟨data, i, j⟩ n =
      (bitsToNat (((allBits data).drop (8 * i + j)).take n),
       ⟨data, (8 * i + j + n) / 8, (8 * i + j + n) % 8⟩) := by
  unfold PacketReader.read_bits
  rw [readBitsAux_spec data n i j 0 hj hle]
  simp

/-! ## Reading past the end of the buffer -/

theorem read_bits_past_end (r : PacketReader) (n : Nat) (h : r.data.length ≤ r.bytePos) :
    r.read_bits n = (0, r) := by
  cases n with
  | zero => simp [PacketReader.read_bits, readBitsAux]
  | succ n => simp [PacketReader.read_bits, readBitsAux, h]

theorem readBitsAux_overrun : ∀ (n : Nat) (r : PacketReader) (acc : Nat), 1 ≤ n →
    r.bitPos < 8 → 8 * r.data.length < 8 * r.bytePos + r.bitPos + n →
    (readBitsAux r n acc).1 = 0 ∧ (readBitsAux r n acc).2.data = r.data ∧
      (readBitsAux r n acc).2.data.length ≤ (readBitsAux r n acc).2.bytePos := by
  intro n
  induction n with
  | zero =>
    intro r acc h1
    exact absurd h1 (by norm_num)
  | succ n ih =>
    intro r acc _ hbit hover
    by_cases hend : r.data.length ≤ r.bytePos
    · have hstep : readBitsAux r (n + 1) acc = (0, r) := by
        simp only [readBitsAux, hend, if_true]
      rw [hstep]
      exact ⟨rfl, rfl, hend⟩
    · push_neg at hend
      have hn1 : 1 ≤ n := by omega
      by_cases hj : r.bitPos + 1 = 8
      · have hstep : readBitsAux r (n + 1) acc =
            readBitsAux ⟨r.data, r.bytePos + 1, 0⟩ n
              ((acc <<< 1) ||| ((r.data.getD r.bytePos 0) >>> (7 - r.bitPos) &&& 1)) := by
          simp only [readBitsAux, hj]
          rw [if_neg (by omega)]
          simp
        rw [hstep]
        exact ih _ _ hn1 (by norm_num) (by simp; omega)
      · have hstep : readBitsAux r (n + 1) acc =
            readBitsAux ⟨r.data, r.bytePos, r.bitPos + 1⟩ n
              ((acc <<< 1) ||| ((r.data.getD r.bytePos 0) >>> (7 - r.bitPos) &&& 1)) := by
          simp only [readBitsAux, hj]
          rw [if_neg (by omega)]
          simp
        rw [hstep]
        exact ih _ _ hn1 (by simp; omega) (by simp; omega)

theorem readWidths_cons (r : PacketReader) (n : Nat) (ns : List Nat) :
    readWidths r (n :: ns) = (r.read_bits n).1 :: readWidths (r.read_bits n).2 ns := rfl

theorem readWidths_past_end (r : PacketReader) (h : r.data.length ≤ r.bytePos) :
    ∀ ws, ∀ v ∈ readWidths r ws, v = 0 := by
  intro ws
  induction ws with
  | nil => simp [readWidths]
  | cons n ns ih =>
    intro v hv
    rw [readWidths_cons, read_bits_past_end r n h] at hv
    simp only [List.mem_cons] at hv
    rcases hv with hv | hv
    · simpa using hv
    · exact ih v (by simpa using hv)

/-! ## Round trip: write a mixed-width sequence, read it back -/

/-- Write a list of `(value, width)` pairs into a fresh writer with
`write_bits`, in order. -/
def writePairs (ps : List (Nat × Nat)) : PacketWriter :=
  ps.foldl (fun w q => w.write_bits q.1 q.2) PacketWriter.init

theorem writePairs_rep (ps : List (Nat × Nat)) :
    ∀ (w : PacketWriter) (bs p : List Nat), WriterRep w bs p →
    ∃ bs2 p2, WriterRep (ps.foldl (fun w q => w.write_bits q.1 q.2) w) bs2 p2 ∧
      allBits bs2 ++ p2 = allBits bs ++ p ++ (ps.map (fun q => natBits q.1 q.2)).flatten := by
  induction ps with
  | nil =>
    intro w bs p h
    exact ⟨bs, p, h, by simp⟩
  | cons q ps ih =>
    intro w bs p h
    obtain ⟨bs1, p1, h1, heq1⟩ := write_bits_rep q.1 q.2 h
    obtain ⟨bs2, p2, h2, heq2⟩ := ih _ _ _ h1
    refine ⟨bs2, p2, by simpa using h2, ?_⟩
    rw [heq2, heq1]
    simp [List.append_assoc]

theorem flatten_natBits_length (ps : List (Nat × Nat)) :
    ((ps.map (fun q => natBits q.1 q.2)).flatten).length = (ps.map Prod.snd).sum := by
  induction ps with
  | nil => simp
  | cons q ps ih =>
    simp [natBits_length, ih]

theorem readWidths_spec : ∀ (ps : List (Nat × Nat)) (data : List Nat) (pos : Nat),
    (∀ p ∈ ps, p.1 < 2 ^ p.2) →
    pos + (ps.map Prod.snd).sum ≤ 8 * data.length →
    ((allBits data).drop pos).take (ps.map Prod.snd).sum =
      (ps.map (fun q => natBits q.1 q.2)).flatten →
    readWidths ⟨data, pos / 8, pos % 8⟩ (ps.map Prod.snd) = ps.map Prod.fst := by
  intro ps
  induction ps with
  | nil =>
    intro data pos _ _ _
    simp [readWidths]
  | cons q ps ih =>
    intro data pos hlt hle htake
    obtain ⟨v, n⟩ := q
    have hv : v < 2 ^ n := hlt (v, n) (by simp)
    have hsum : ((v, n) :: ps).map Prod.snd = n :: ps.map Prod.snd := by simp
    have hablen : (allBits data).length = 8 * data.length := allBits_length data
    have hsums : (((v, n) :: ps).map Prod.snd).sum = n + (ps.map Prod.snd).sum := by simp
    have hpm : 8 * (pos / 8) + pos % 8 = pos := by omega
    have hr := read_bits_spec data n (pos / 8) (pos % 8) (by omega)
      (by rw [hpm]; simp at hle; omega)
    rw [hpm] at hr
    -- split the stream equation
    rw [hsums, List.take_add] at htake
    simp only [List.map_cons, List.flatten_cons] at htake
    have hlen1 : (((allBits data).drop pos).take n).length = n := by
      rw [List.length_take, List.length_drop]
      simp at hle
      omega
    have hsplit := List.append_inj htake (by rw [hlen1, natBits_length])
    obtain ⟨hfirst, hrest⟩ := hsplit
    have hvalue : bitsToNat (((allBits data).drop pos).take n) = v := by
      rw [hfirst, bitsToNat_natBits, Nat.mod_eq_of_lt hv]
    have hdd : ((allBits data).drop pos).drop n = (allBits data).drop (pos + n) := by
      rw [List.drop_drop]
    rw [hdd] at hrest
    have hnext := ih data (pos + n) (fun p hp => hlt p (by simp [hp]))
      (by simp at hle; omega) hrest
    rw [hsum, readWidths_cons, hr]
    dsimp only
    rw [hvalue, hnext]
    simp

/-- The written byte stream of `writePairs`, as produced by `get_bytes`. -/
theorem writePairs_get_bytes (ps : List (Nat × Nat)) :
    ∃ pad : List Nat,
      allBits (writePairs ps).get_bytes =
        (ps.map (fun q => natBits q.1 q.2)).flatten ++ pad := by
  simp only [writePairs]
  obtain ⟨bs, p, hrep, heq⟩ := writePairs_rep ps PacketWriter.init [] [] writerRep_init
  rcases get_bytes_rep hrep with hg | ⟨hpnil, hg⟩
  · refine ⟨List.replicate (8 - p.length) 0, ?_⟩
    rw [hg]
    simp only [allBits, List.append_assoc] at heq ⊢
    rw [← List.append_assoc, heq]
    simp
  · subst hpnil
    refine ⟨[], ?_⟩
    rw [hg]
    simpa using heq

/-! ## `write_bits` on arbitrary Python ints

Python's `value >> i` on a negative int is an arithmetic (floor) shift and
`x & 1` is the nonnegative residue `x mod 2`; on `Int` these are `· >>> i`
(which floors) and `· % 2` (`Int.emod`). -/

/-- Bit `i` of an arbitrary Python int, as `write_bits` extracts it:
`(value >> i) & 1`. -/
def intBit (value : Int) (i : Nat) : Nat := ((value >>> i) % 2).toNat

/-- `PacketWriter.write_bits(value, num_bits)` for an arbitrary (possibly
negative) Python int `value`: same loop as `write_bits`, with Python's
arithmetic shift and masking semantics. -/
def PacketWriter.write_bits_int (w : PacketWriter) (value : Int) (numBits : Nat) : PacketWriter :=
  (List.range numBits).reverse.foldl (fun acc i => writeBit acc (intBit value i)) w

theorem foldl_congr_mem {α β : Type} (l : List β) (f g : α → β → α) (a : α)
    (h : ∀ (x : α) (b : β), b ∈ l → f x b = g x b) : l.foldl f a = l.foldl g a := by
  induction l generalizing a with
  | nil => rfl
  | cons b l ih =>
    rw [List.foldl_cons, List.foldl_cons, h a b (by simp)]
    exact ih _ (fun x c hc => h x c (by simp [hc]))

theorem emod_two_pow_ediv_emod_two (value : Int) (n i : Nat) (h : i < n) :
    (value % ((2 : Int) ^ n)) / (2 : Int) ^ i % 2 = value / (2 : Int) ^ i % 2 := by
  have hsplit := Int.ediv_add_emod value ((2 : Int) ^ n)
  set q := value / (2 : Int) ^ n with hq
  set r := value % (2 : Int) ^ n with hr
  have hval : value = r + (2 : Int) ^ (n - i) * q * (2 : Int) ^ i := by
    have hpow : (2 : Int) ^ (n - i) * (2 : Int) ^ i = (2 : Int) ^ n := by
      rw [← pow_add]
      congr 1
      omega
    rw [← hsplit, ← hpow]
    ring
  have hdiv : value / (2 : Int) ^ i = r / (2 : Int) ^ i + (2 : Int) ^ (n - i) * q := by
    conv_lhs => rw [hval]
    exact Int.add_mul_ediv_right r _ (by positivity)
  rw [hdiv]
  have hni : (2 : Int) ^ (n - i) * q = ((2 : Int) ^ (n - i - 1) * q) * 2 := by
    have : (2 : Int) ^ (n - i) = (2 : Int) ^ (n - i - 1) * 2 := by
      rw [← pow_succ]
      congr 1
      omega
    rw [this]
    ring
  rw [hni, Int.add_mul_emod_self]

theorem intBit_as_nat (value : Int) (n i : Nat) (h : i < n) :
    intBit value i = ((value % ((2 : Int) ^ n)).toNat >>> i) &&& 1 := by
  have hnn : 0 ≤ value % ((2 : Int) ^ n) := Int.emod_nonneg value (by positivity)
  set M : Nat := (value % ((2 : Int) ^ n)).toNat with hM
  have hcast : (M : Int) = value % ((2 : Int) ^ n) := Int.toNat_of_nonneg hnn
  rw [shiftRight_and_one]
  unfold intBit
  rw [Int.shiftRight_eq_div_pow]
  push_cast
  have hint : value / (2 : Int) ^ i % 2 = (M : Int) / (2 : Int) ^ i % 2 := by
    rw [hcast]
    exact (emod_two_pow_ediv_emod_two value n i h).symm
  rw [hint]
  have hfin : (M : Int) / (2 : Int) ^ i % 2 = ((M / 2 ^ i % 2 : Nat) : Int) := by
    push_cast
    ring
  rw [hfin, Int.toNat_natCast]

/-- The central fact behind the Nat-valued embedding of `write_bits`: on an
arbitrary Python int, `write_bits(value, n)` writes exactly the bits of
`value mod 2^n`. -/
theorem write_bits_int_eq_mod (w : PacketWriter) (value : Int) (n : Nat) :
    w.write_bits_int value n = w.write_bits (value % ((2 : Int) ^ n)).toNat n := by
  unfold PacketWriter.write_bits_int PacketWriter.write_bits
  apply foldl_congr_mem
  intro x i hi
  have hin : i < n := by
    simp only [List.mem_reverse, List.mem_range] at hi
    exact hi
  rw [intBit_as_nat value n i hin]

/-! ## Strings -/

/-- `PacketReader.read_byte`. -/
def PacketReader.read_byte (r : PacketReader) : Nat × PacketReader := r.read_bits 8

/-- `PacketReader.read_int16` (the sign-extension branch in the source is
commented out, so the raw 16-bit value is returned). -/
def PacketReader.read_int16 (r : PacketReader) : Nat × PacketReader := r.read_bits 16

/-- The byte-reading loop of `PacketReader.read_string`. -/
def readByteList : Nat → PacketReader → List Nat × PacketReader
  | 0, r => ([], r)
  | n + 1, r =>
    let res := r.read_byte
    let rest := readByteList n res.2
    (res.1 :: rest.1, rest.2)

/-- `PacketReader.read_string`: read a 16-bit length, reject `0` or `> 4096`,
read that many bytes, strip one trailing NUL if present, decode as ASCII with
`errors='ignore'` (bytes `≥ 128` are dropped). -/
def PacketReader.read_string (r : PacketReader) : List Nat × PacketReader :=
  let lr := r.read_int16
  if lr.1 = 0 ∨ 4096 < lr.1 then ([], lr.2)
  else
    let br := readByteList lr.1 lr.2
    let stripped := if br.1.getLast? = some 0 then br.1.dropLast else br.1
    (stripped.filter (fun b => b < 128), br.2)

theorem allBits_drop : ∀ (data : List Nat) (i : Nat),
    (allBits data).drop (8 * i) = allBits (data.drop i) := by
  intro data
  induction data with
  | nil => intro i; simp [allBits]
  | cons d rest ih =>
    intro i
    cases i with
    | zero => simp
    | succ i =>
      rw [allBits_cons]
      have hdl : ((natBits d 8 ++ allBits rest).drop (natBits d 8).length).drop (8 * i)
          = (natBits d 8 ++ allBits rest).drop ((natBits d 8).length + 8 * i) := by
        rw [List.drop_drop]
      have h8 : 8 * (i + 1) = (natBits d 8).length + 8 * i := by
        rw [natBits_length]
        omega
      rw [h8, ← hdl, List.drop_left, ih i, List.drop_succ_cons]

theorem read_byte_aligned (data : List Nat) (i : Nat) (hi : i < data.length) :
    PacketReader.read_bits ⟨data, i, 0⟩ 8 = (data.getD i 0 % 256, ⟨data, i + 1, 0⟩) := by
  have h := read_bits_spec data 8 i 0 (by norm_num) (by omega)
  have hpos : 8 * i + 0 = 8 * i := by omega
  rw [hpos] at h
  have hdropcons : data.drop i = data.getD i 0 :: data.drop (i + 1) := by
    rw [List.drop_eq_getElem_cons hi, List.getD_eq_getElem _ _ hi]
  have htake : ((allBits data).drop (8 * i)).take 8 = natBits (data.getD i 0) 8 := by
    rw [allBits_drop, hdropcons, allBits_cons]
    rw [← natBits_length (data.getD i 0) 8]
    exact List.take_left _ _
  rw [h, htake, bitsToNat_natBits]
  have hdiv : (8 * i + 8) / 8 = i + 1 := by omega
  have hmod : (8 * i + 8) % 8 = 0 := by omega
  rw [hdiv, hmod]
  norm_num

theorem readByteList_spec (data : List Nat) : ∀ (n i : Nat), i + n ≤ data.length →
    readByteList n ⟨data, i, 0⟩ = (((data.drop i).take n).map (· % 256), ⟨data, i + n, 0⟩) := by
  intro n
  induction n with
  | zero =>
    intro i _
    simp [readByteList]
  | succ n ih =>
    intro i hle
    have hi : i < data.length := by omega
    have hdropcons : data.drop i = data.getD i 0 :: data.drop (i + 1) := by
      rw [List.drop_eq_getElem_cons hi, List.getD_eq_getElem _ _ hi]
    have hstep : readByteList (n + 1) ⟨data, i, 0⟩ =
        ((⟨data, i, 0⟩ : PacketReader).read_byte.1 ::
          (readByteList n (⟨data, i, 0⟩ : PacketReader).read_byte.2).1,
         (readByteList n (⟨data, i, 0⟩ : PacketReader).read_byte.2).2) := rfl
    rw [hstep]
    unfold PacketReader.read_byte
    rw [read_byte_aligned data i hi]
    dsimp only
    rw [ih (i + 1) (by omega)]
    rw [hdropcons]
    dsimp only
    have hidx : i + 1 + n = i + (n + 1) := by omega
    rw [List.take_succ_cons, List.map_cons, hidx]

theorem write_string_bytes (s : List Nat) (h : ∀ c ∈ s, c < 128) :
    (PacketWriter.init.write_string s).get_bytes =
      [(s.length + 1) / 256 % 256, (s.length + 1) % 256] ++ s ++ [0] := by
  unfold PacketWriter.write_string
  have hmap : s.map (fun c => if c < 128 then c else 63) = s := by
    conv_rhs => rw [← List.map_id s]
    apply List.map_congr_left
    intro c hc
    simp [h c hc]
  have hinit : PacketWriter.init = (⟨[], 0, 0⟩ : PacketWriter) := rfl
  rw [hmap, hinit]
  dsimp only
  have hrawlen : (s ++ [0]).length = s.length + 1 := by simp
  rw [hrawlen, write_int16_aligned, foldl_write_byte_aligned, get_bytes_aligned]
  have hmap2 : (s ++ [0]).map (· % 256) = s ++ [0] := by
    conv_rhs => rw [← List.map_id (s ++ [0])]
    apply List.map_congr_left
    intro c hc
    rcases List.mem_append.mp hc with hc | hc
    · have := h c hc
      simp
      omega
    · simp only [List.mem_singleton] at hc
      subst hc
      simp
  rw [hmap2]
  simp

theorem read_int16_head (x y : Nat) (rest : List Nat) :
    PacketReader.read_int16 ⟨x :: y :: rest, 0, 0⟩ =
      (x % 256 * 256 + y % 256, ⟨x :: y :: rest, 2, 0⟩) := by
  unfold PacketReader.read_int16
  have h := read_bits_spec (x :: y :: rest) 16 0 0 (by norm_num) (by simp; omega)
  norm_num at h
  rw [h]
  have htake : (allBits (x :: y :: rest)).take 16 =
      natBits x 8 ++ natBits y 8 := by
    rw [allBits_cons, allBits_cons]
    have h16 : (16 : Nat) = 8 + 8 := by norm_num
    rw [h16, List.take_add]
    rw [List.take_left' (natBits_length x 8), List.drop_left' (natBits_length x 8),
      List.take_left' (natBits_length y 8)]
  rw [htake, bitsToNat_append, bitsToNat_natBits, bitsToNat_natBits, natBits_length]
  norm_num

theorem read_string_of_write (s : List Nat) (hch : ∀ c ∈ s, c < 128)
    (hlen : s.length ≤ 4095) :
    (PacketReader.init ((PacketWriter.init.write_string s).get_bytes)).read_string =
      (s, ⟨(PacketWriter.init.write_string s).get_bytes, s.length + 3, 0⟩) := by
  have hbytes := write_string_bytes s hch
  set L := s.length + 1 with hL
  have hL4096 : L ≤ 4096 := by omega
  have hcons : [(s.length + 1) / 256 % 256, (s.length + 1) % 256] ++ s ++ [0] =
      L / 256 % 256 :: L % 256 :: (s ++ [0]) := by
    simp [hL]
  rw [hcons] at hbytes
  unfold PacketReader.read_string PacketReader.init
  rw [hbytes, read_int16_head]
  have hval : L / 256 % 256 % 256 * 256 + L % 256 % 256 = L := by omega
  rw [hval]
  dsimp only
  rw [if_neg (by omega)]
  have hblen : (L / 256 % 256 :: L % 256 :: (s ++ [0])).length = 2 + L := by
    simp [hL]
    omega
  have hread := readByteList_spec (L / 256 % 256 :: L % 256 :: (s ++ [0])) L 2 (by omega)
  rw [hread]
  have hdrop2 : (L / 256 % 256 :: L % 256 :: (s ++ [0])).drop 2 = s ++ [0] := rfl
  rw [hdrop2]
  have htakeL : (s ++ [0]).take L = s ++ [0] := by
    have : (s ++ [0]).length = L := by simp [hL]
    rw [← this]
    exact List.take_length _
  rw [htakeL]
  have hmap : (s ++ [0]).map (· % 256) = s ++ [0] := by
    conv_rhs => rw [← List.map_id (s ++ [0])]
    apply List.map_congr_left
    intro c hc
    rcases List.mem_append.mp hc with hc | hc
    · have := hch c hc
      simp
      omega
    · simp only [List.mem_singleton] at hc
      subst hc
      simp
  rw [hmap]
  dsimp only
  rw [List.getLast?_concat, if_pos rfl, List.dropLast_concat]
  have hfilter : s.filter (fun b => b < 128) = s := by
    apply List.filter_eq_self.mpr
    intro a ha
    simpa using hch a ha
  rw [hfilter]
  have hpos : 2 + L = s.length + 3 := by omega
  rw [hpos]

/-! ## Quantized float codec, from `src/network/translation_config.py`

Python floats are modelled as exact rationals; `int(x)` on a float truncates
toward zero, which is `truncQ` below. -/

/-- Truncation toward zero: Python's `int()` applied to a float. -/
def truncQ (q : ℚ) : Int := if q < 0 then ⌈q⌉ else ⌊q⌋

/-- The fields set by `TranslationConfig.configure`. -/
structure TranslationConfig where
  precision_header_bits : Nat
  max_total_bits : Int
  precision_base_bits : Int
  min_value : ℚ
  max_value : ℚ
  range : ℚ

/-- `TranslationConfig.configure(header_bits, max_total_bits, max_val, range_val)`.
Python's `1 << header_bits` is `2 ^ header_bits`. -/
def configure (header_bits : Nat) (max_total_bits : Int) (max_val range_val : ℚ) :
    TranslationConfig :=
  let base : Int :=
    if max_total_bits ≤ 0 then (header_bits : Int)
    else
      let diff := max_total_bits - (2 : Int) ^ header_bits
      if diff + 1 < 1 then 1 else diff + 1
  { precision_header_bits := header_bits
    max_total_bits := max_total_bits
    precision_base_bits := base
    min_value := max_val - range_val
    max_value := max_val
    range := range_val }

/-- The priority actually used by `compress`: `0` in fixed mode, otherwise the
argument clamped from above to `2 ^ precision_header_bits - 1`. -/
def TranslationConfig.headerFor (c : TranslationConfig) (priority : Int) : Int :=
  if c.max_total_bits ≤ 0 then 0
  else
    let max_p := (2 : Int) ^ c.precision_header_bits - 1
    if max_p < priority then max_p else priority

/-- The data width used by `compress`: `precision_base_bits` in fixed mode,
otherwise `precision_base_bits + clamped priority`. -/
def TranslationConfig.bitsFor (c : TranslationConfig) (priority : Int) : Int :=
  if c.max_total_bits ≤ 0 then c.precision_base_bits
  else c.precision_base_bits + c.headerFor priority

/-- `TranslationConfig.compress(float_val, priority)`: returns
`(header_value, compressed_int, num_bits)`. Python's `1 << current_bits`
appears as `2 ^ current_bits.toNat`; in every call the codebase makes,
`current_bits` is nonnegative (Python would raise on a negative shift
count). -/
def TranslationConfig.compress (c : TranslationConfig) (float_val : ℚ) (priority : Int) :
    Int × Int × Int :=
  let pb : Int × Int :=
    if c.max_total_bits ≤ 0 then (0, c.precision_base_bits)
    else
      let max_p := (2 : Int) ^ c.precision_header_bits - 1
      let p := if max_p < priority then max_p else priority
      (p, c.precision_base_bits + p)
  if float_val = 0 then (pb.1, 0, pb.2)
  else
    let denom0 : Int := (2 : Int) ^ pb.2.toNat - 2
    let denom : Int := if denom0 ≤ 0 then 1 else denom0
    let v1 := if c.max_value < float_val then c.max_value else float_val
    let v2 := if v1 < c.min_value then c.min_value else v1
    let raw_val : Int :=
      if c.range = 0 then 1
      else truncQ ((c.max_value - v2) * (denom : ℚ) / c.range) + 1
    (pb.1, raw_val, pb.2)

/-- `TranslationConfig.decompress(priority, raw_val)`. -/
def TranslationConfig.decompress (c : TranslationConfig) (priority raw_val : Int) : ℚ :=
  let current_bits : Int :=
    if c.max_total_bits ≤ 0 then c.precision_base_bits
    else c.precision_base_bits + priority
  if raw_val = 0 then 0
  else
    let denom0 : Int := (2 : Int) ^ current_bits.toNat - 2
    let denom : Int := if denom0 ≤ 0 then 1 else denom0
    if c.range = 0 then c.max_value
    else c.max_value - ((raw_val - 1 : Int) : ℚ) * c.range / (denom : ℚ)

/-- Exported instances built in `translation_config.py` from `GLOBAL_CONFIGS`. -/
def COMPRESSOR_POS : TranslationConfig := configure 4 16 8192 16384

def COMPRESSOR_VEL : TranslationConfig := configure 4 16 1000 2000

def COMPRESSOR_ROT : TranslationConfig := configure 4 16 (63 / 10) (126 / 10)

def COMPRESSOR_SPIN : TranslationConfig := configure 4 16 200 400

/-- Health/Energy: `GLOBAL_CONFIGS[5] = {head 10, total 0, max 1.0, range 1.0}`. -/
def COMPRESSOR_STAT : TranslationConfig := configure 10 0 1 1

def ID_BITS_UNIT : Nat := 8

def ID_BITS_TEAM : Nat := 8

def ID_BITS_UNIT_CARGO : Nat := 8

/-- `GLOBAL_CONFIGS[0]['head']` (the scalar default). -/
def BANK_SELECTOR_BITS : Nat := 16

theorem compress_zero (c : TranslationConfig) (p : Int) :
    c.compress 0 p = (c.headerFor p, 0, c.bitsFor p) := by
  by_cases hm : c.max_total_bits ≤ 0 <;>
    simp [TranslationConfig.compress, TranslationConfig.headerFor,
      TranslationConfig.bitsFor, hm]

theorem decompress_zero (c : TranslationConfig) (p : Int) : c.decompress p 0 = 0 := by
  unfold TranslationConfig.decompress
  simp

theorem compress_eq (c : TranslationConfig) (p : Int) (v : ℚ) (hv0 : v ≠ 0)
    (hle : v ≤ c.max_value) (hge : c.min_value ≤ v)
    (hd : ¬ ((2 : Int) ^ (c.bitsFor p).toNat - 2 ≤ 0)) :
    c.compress v p = (c.headerFor p,
      (if c.range = 0 then 1
       else truncQ ((c.max_value - v) *
          ((((2 : Int) ^ (c.bitsFor p).toNat - 2) : Int) : ℚ) / c.range) + 1),
      c.bitsFor p) := by
  have hc1 : ¬ (c.max_value < v) := not_lt.mpr hle
  have hc2 : ¬ (v < c.min_value) := not_lt.mpr hge
  unfold TranslationConfig.bitsFor TranslationConfig.headerFor at *
  unfold TranslationConfig.compress
  by_cases hm : c.max_total_bits ≤ 0 <;>
    simp only [hm, if_true, if_false, ite_true, ite_false] at hd ⊢ <;>
    simp [hv0, hd, hc1, hc2]

theorem decompress_eq (c : TranslationConfig) (pr raw : Int) (hraw : raw ≠ 0)
    (hd : ¬ ((2 : Int) ^ (if c.max_total_bits ≤ 0 then c.precision_base_bits
        else c.precision_base_bits + pr).toNat - 2 ≤ 0)) :
    c.decompress pr raw =
      if c.range = 0 then c.max_value
      else c.max_value - ((raw - 1 : Int) : ℚ) * c.range /
        ((((2 : Int) ^ (if c.max_total_bits ≤ 0 then c.precision_base_bits
          else c.precision_base_bits + pr).toNat - 2) : Int) : ℚ) := by
  unfold TranslationConfig.decompress
  by_cases hm : c.max_total_bits ≤ 0 <;>
    simp only [hm, if_true, if_false, ite_true, ite_false] at hd ⊢ <;>
    simp [hraw, hd]

theorem dbits_headerFor (c : TranslationConfig) (p : Int) :
    (if c.max_total_bits ≤ 0 then c.precision_base_bits
      else c.precision_base_bits + c.headerFor p) = c.bitsFor p := by
  by_cases hm : c.max_total_bits ≤ 0 <;>
    simp [TranslationConfig.bitsFor, TranslationConfig.headerFor, hm]

theorem compress_bits (c : TranslationConfig) (v : ℚ) (p : Int) :
    (c.compress v p).2.2 = c.bitsFor p := by
  by_cases hm : c.max_total_bits ≤ 0 <;> by_cases hv : v = 0 <;>
    simp [TranslationConfig.compress, TranslationConfig.bitsFor,
      TranslationConfig.headerFor, hm, hv]

theorem compress_fst (c : TranslationConfig) (v : ℚ) (p : Int) :
    (c.compress v p).1 = c.headerFor p := by
  by_cases hm : c.max_total_bits ≤ 0 <;> by_cases hv : v = 0 <;>
    simp [TranslationConfig.compress, TranslationConfig.headerFor, hm, hv]

theorem truncQ_of_nonneg (q : ℚ) (h : 0 ≤ q) : truncQ q = ⌊q⌋ := by
  unfold truncQ
  rw [if_neg (not_lt.mpr h)]

theorem quant_error_bound (mx r v D : ℚ) (hD : 0 < D) (hr : 0 < r) :
    |mx - ((⌊(mx - v) * D / r⌋ : ℚ)) * r / D - v| ≤ r / D := by
  set s := (mx - v) * D / r with hs
  have hfl : (⌊s⌋ : ℚ) ≤ s := Int.floor_le s
  have hfu : s < ⌊s⌋ + 1 := Int.lt_floor_add_one s
  have hmxv : mx - v = s * r / D := by
    rw [hs]
    field_simp
  have hu : (0 : ℚ) < r / D := div_pos hr hD
  have key : mx - (⌊s⌋ : ℚ) * r / D - v = (s - ⌊s⌋) * (r / D) := by
    have hexp : mx - (⌊s⌋ : ℚ) * r / D - v = (mx - v) - (⌊s⌋ : ℚ) * r / D := by ring
    rw [hexp, hmxv]
    ring
  rw [key, abs_of_nonneg (mul_nonneg (by linarith) (le_of_lt hu))]
  calc (s - ⌊s⌋) * (r / D) ≤ 1 * (r / D) :=
        mul_le_mul_of_nonneg_right (by linarith) (le_of_lt hu)
    _ = r / D := one_mul _

theorem compress_decompress_close (c : TranslationConfig) (p : Int) (v : ℚ)
    (hmin : c.min_value = c.max_value - c.range)
    (hv1 : c.min_value ≤ v) (hv2 : v ≤ c.max_value)
    (hbits : 2 ≤ c.bitsFor p) :
    |c.decompress (c.compress v p).1 (c.compress v p).2.1 - v| ≤
      c.range / ((2 : ℚ) ^ ((c.bitsFor p).toNat) - 2) := by
  have hr0 : 0 ≤ c.range := by
    rw [hmin] at hv1
    linarith
  have htn : 2 ≤ (c.bitsFor p).toNat := by omega
  have hpow4 : (4 : Int) ≤ 2 ^ (c.bitsFor p).toNat := by
    have h22 : ((2 : Int) ^ 2) ≤ 2 ^ (c.bitsFor p).toNat :=
      pow_le_pow_right₀ (by norm_num) htn
    norm_num at h22
    exact h22
  have hd : ¬ ((2 : Int) ^ (c.bitsFor p).toNat - 2 ≤ 0) := by omega
  have hDq : (0 : ℚ) < (((2 : Int) ^ (c.bitsFor p).toNat - 2 : Int) : ℚ) := by
    have : (0 : Int) < (2 : Int) ^ (c.bitsFor p).toNat - 2 := by omega
    exact_mod_cast this
  have hcast : (((2 : Int) ^ (c.bitsFor p).toNat - 2 : Int) : ℚ) =
      (2 : ℚ) ^ ((c.bitsFor p).toNat) - 2 := by
    push_cast
    ring
  rcases eq_or_ne v 0 with hv0 | hv0
  · subst hv0
    rw [compress_zero, decompress_zero]
    simp only [sub_zero, abs_zero]
    rw [← hcast]
    exact div_nonneg hr0 (le_of_lt hDq)
  · rw [compress_eq c p v hv0 hv2 hv1 hd]
    dsimp only
    rcases eq_or_ne c.range 0 with hr | hr
    · rw [if_pos hr]
      have hde := decompress_eq c (c.headerFor p) 1 (by norm_num)
        (by rw [dbits_headerFor]; exact hd)
      rw [dbits_headerFor] at hde
      rw [hde, if_pos hr]
      have hveq : v = c.max_value := by
        rw [hmin, hr] at hv1
        linarith
      rw [hveq, hr]
      simp
    · have hrpos : 0 < c.range := lt_of_le_of_ne hr0 (Ne.symm hr)
      rw [if_neg hr]
      set sq : ℚ := (c.max_value - v) *
        ((((2 : Int) ^ (c.bitsFor p).toNat - 2) : Int) : ℚ) / c.range with hsq
      have hs0 : 0 ≤ sq := by
        rw [hsq]
        apply div_nonneg (mul_nonneg (by linarith) (le_of_lt hDq)) (le_of_lt hrpos)
      rw [truncQ_of_nonneg _ hs0]
      have hfloor0 : (0 : Int) ≤ ⌊sq⌋ := Int.floor_nonneg.mpr hs0
      have hraw : ⌊sq⌋ + 1 ≠ 0 := by omega
      have hde := decompress_eq c (c.headerFor p) (⌊sq⌋ + 1) hraw
        (by rw [dbits_headerFor]; exact hd)
      rw [dbits_headerFor] at hde
      rw [hde, if_neg hr]
      have hsimp : ((⌊sq⌋ + 1 - 1 : Int) : ℚ) = ((⌊sq⌋ : Int) : ℚ) := by
        push_cast
        ring
      rw [hsimp, ← hcast]
      exact quant_error_bound c.max_value c.range v _ hDq hrpos

/-! ## Entity model, from `src/core/entity.py` -/

namespace UpdateMask

def DEFINITION : Nat := 1 <<< 0

def POS : Nat := 1 <<< 1

def VEL : Nat := 1 <<< 2

def ROT : Nat := 1 <<< 3

def SPIN : Nat := 1 <<< 4

def HEALTH : Nat := 1 <<< 5

def WEAPON : Nat := 1 <<< 6

def ENERGY : Nat := 1 <<< 7

def OWNER : Nat := 1 <<< 8

def HARD_SYNC : Nat := 1 <<< 9

end UpdateMask

/-- The `GameEntity` dataclass. Note that it has **no** `spin` field, although
`EntitySerializer.serialize` reads `entity.spin` when mask bit 4 is set;
accessing that attribute on a `GameEntity` raises `AttributeError` in
Python. -/
structure GameEntity where
  net_id : Nat
  unit_type : Nat
  team_id : Nat
  pos : ℚ × ℚ × ℚ
  vel : ℚ × ℚ × ℚ
  rot : ℚ × ℚ × ℚ
  health : ℚ
  energy : ℚ
  is_manned : Bool
  pending_mask : Nat

/-- `GameEntity(net_id=…, unit_type=…, team_id=…)` with the dataclass
defaults for the remaining fields. -/
def GameEntity.create (net_id unit_type team_id : Nat) : GameEntity :=
  { net_id := net_id, unit_type := unit_type, team_id := team_id,
    pos := (0, 0, 0), vel := (0, 0, 0), rot := (0, 0, 0),
    health := 1, energy := 1, is_manned := true, pending_mask := 0 }

/-- `GameEntity.mark_dirty`: OR the given bits into `pending_mask`. -/
def GameEntity.mark_dirty (e : GameEntity) (mask : Nat) : GameEntity :=
  { e with pending_mask := e.pending_mask ||| mask }

/-- `GameEntity.clear_dirty`: zero `pending_mask`. -/
def GameEntity.clear_dirty (e : GameEntity) : GameEntity :=
  { e with pending_mask := 0 }

/-- Python runtime errors raised by the embedded code. -/
inductive PyErr where
  | typeError
  | attributeError
deriving Repr, DecidableEq

/-! ## UpdateArray serializer, from `src/network/packets/update_array.py` -/

/-- `EntitySerializer._write_vec`: write the maximum priority once, then the
three components compressed at that priority. `compressed_val` and `num_bits`
are nonnegative integers in every reachable call, so `Int.toNat` is exact. -/
def writeVec (w : PacketWriter) (vec : ℚ × ℚ × ℚ) (compressor : TranslationConfig) :
    PacketWriter :=
  let priority : Nat := (1 <<< compressor.precision_header_bits) - 1
  let w1 := w.write_bits priority compressor.precision_header_bits
  let rx := compressor.compress vec.1 (priority : Int)
  let w2 := w1.write_bits rx.2.1.toNat rx.2.2.toNat
  let ry := compressor.compress vec.2.1 (priority : Int)
  let w3 := w2.write_bits ry.2.1.toNat ry.2.2.toNat
  let rz := compressor.compress vec.2.2 (priority : Int)
  w3.write_bits rz.2.1.toNat rz.2.2.toNat

/-- `EntitySerializer.serialize(entity, force_definition)`. Reading
`entity.spin` (mask bit 4) raises `AttributeError` because the dataclass has
no such field; nothing after that point runs. Bit 6 (Weapon) is a `pass` and
bit 9 (HardSync) has no payload. -/
def serialize (w : PacketWriter) (entity : GameEntity) (force_definition : Bool) :
    Except PyErr PacketWriter :=
  let mask := if force_definition then entity.pending_mask ||| UpdateMask.DEFINITION
    else entity.pending_mask
  let w1 := w.write_int32 entity.net_id
  let w2 := w1.write_bool entity.is_manned
  let w3 := w2.write_bits mask 10
  let w4 := w3.write_bits 0 BANK_SELECTOR_BITS
  let w5 :=
    if mask &&& UpdateMask.DEFINITION ≠ 0 then
      let d1 := w4.write_bits entity.unit_type ID_BITS_UNIT
      let d2 := d1.write_bits entity.team_id ID_BITS_TEAM
      let d3 := d2.write_bits entity.team_id ID_BITS_TEAM
      let d4 :=
        if entity.unit_type = 37 then (d3.write_int32 0).write_int32 0
        else if entity.unit_type = 19 then d3.write_bits 25 ID_BITS_UNIT_CARGO
        else d3
      d4.write_bool true
    else w4
  let w6 := if mask &&& UpdateMask.POS ≠ 0 then writeVec w5 entity.pos COMPRESSOR_POS else w5
  let w7 := if mask &&& UpdateMask.VEL ≠ 0 then writeVec w6 entity.vel COMPRESSOR_VEL else w6
  let w8 := if mask &&& UpdateMask.ROT ≠ 0 then writeVec w7 entity.rot COMPRESSOR_ROT else w7
  if mask &&& UpdateMask.SPIN ≠ 0 then .error .attributeError
  else
    let w9 := if mask &&& UpdateMask.HEALTH ≠ 0 then
        let rh := COMPRESSOR_STAT.compress entity.health 3
        w8.write_bits rh.2.1.toNat rh.2.2.toNat
      else w8
    let w10 := if mask &&& UpdateMask.ENERGY ≠ 0 then
        let re := COMPRESSOR_STAT.compress entity.energy 3
        w9.write_bits re.2.1.toNat re.2.2.toNat
      else w9
    let w11 := if mask &&& UpdateMask.OWNER ≠ 0 then w10.write_int32 0 else w10
    .ok w11

/-- `UpdateArrayPacket` state: its writer (the constructor already wrote the
timestamp for view updates, then the sequence), the queued entities, and the
optional local-stats pair. -/
structure UpdateArrayPacket where
  writer : PacketWriter
  sequence_id : Nat
  entities : List (GameEntity × Bool)
  local_stats : Option (ℚ × ℚ)

/-- `UpdateArrayPacket.__init__(sequence_id, is_view_update)`; `ticks` stands
for the wall-clock `get_ticks()`, written only when `is_view_update`. -/
def UpdateArrayPacket.init (sequence_id : Nat) (is_view_update : Bool) (ticks : Nat) :
    UpdateArrayPacket :=
  let w := PacketWriter.init
  let w1 := if is_view_update then w.write_int32 ticks else w
  let w2 := w1.write_int32 sequence_id
  ⟨w2, sequence_id, [], none⟩

/-- `UpdateArrayPacket.set_local_stats`. -/
def UpdateArrayPacket.set_local_stats (pk : UpdateArrayPacket) (health energy : ℚ) :
    UpdateArrayPacket :=
  { pk with local_stats := some (health, energy) }

/-- `UpdateArrayPacket.add_entity(self, entity, force_spawn=False)`: note the
signature — there is no `forced_mask` parameter. -/
def UpdateArrayPacket.add_entity (pk : UpdateArrayPacket) (entity : GameEntity)
    (force_spawn : Bool) : UpdateArrayPacket :=
  { pk with entities := pk.entities ++ [(entity, force_spawn)] }

/-- The entity loop at the end of `UpdateArrayPacket.get_bytes`; a Python
exception from `serialize` propagates. -/
def serializeAll (w : PacketWriter) : List (GameEntity × Bool) → Except PyErr PacketWriter
  | [] => .ok w
  | (e, f) :: rest => do
    let w1 ← serialize w e f
    serializeAll w1 rest

/-- `UpdateArrayPacket.get_bytes`: optional local-stats block (presence bit,
5 reserved bits, quantized health and energy), 8-bit entity count, then each
queued entity serialized in order. -/
def UpdateArrayPacket.get_bytes (pk : UpdateArrayPacket) : Except PyErr (List Nat) :=
  let w :=
    match pk.local_stats with
    | some st =>
      let a := pk.writer.write_bool true
      let b := a.write_bits 0 5
      let rh := COMPRESSOR_STAT.compress st.1 3
      let re := COMPRESSOR_STAT.compress st.2 3
      let c := b.write_bits rh.2.1.toNat rh.2.2.toNat
      c.write_bits re.2.1.toNat re.2.2.toNat
    | none => pk.writer.write_bool false
  let w1 := w.write_bits pk.entities.length 8
  (serializeAll w1 pk.entities).map (fun wf => wf.get_bytes)

/-! ## Entity manager, from `src/core/entity_manager.py` -/

/-- `EntityManager`: the Python `_entities` dict (net id → entity) modelled as
its insertion-ordered value list; keys are unique in every state the code
constructs. -/
structure EntityManager where
  entities : List GameEntity
  next_net_id : Nat

/-- A fresh manager (`_next_net_id` starts at 1). -/
def EntityManager.empty : EntityManager := ⟨[], 1⟩

/-- `self._entities[net_id] = entity`: replace in place when the key exists
(Python dicts keep the original position on overwrite), append otherwise. -/
def storeEntity (l : List GameEntity) (e : GameEntity) : List GameEntity :=
  if l.any (fun x => x.net_id = e.net_id) then
    l.map (fun x => if x.net_id = e.net_id then e else x)
  else l ++ [e]

/-- `EntityManager.create_entity(unit_type, team_id, pos, override_net_id)`. -/
def EntityManager.create_entity (mgr : EntityManager) (unit_type team_id : Nat)
    (pos : ℚ × ℚ × ℚ) (override_net_id : Option Nat) : GameEntity × EntityManager :=
  let net_id :=
    match override_net_id with
    | some nid => nid
    | none => mgr.next_net_id
  let next :=
    match override_net_id with
    | some _ => mgr.next_net_id
    | none => mgr.next_net_id + 1
  let e0 := GameEntity.create net_id unit_type team_id
  let e1 := { e0 with pos := pos, health := 1 }
  let e2 := e1.mark_dirty (UpdateMask.DEFINITION ||| UpdateMask.HEALTH ||| UpdateMask.POS)
  (e2, ⟨storeEntity mgr.entities e2, next⟩)

/-- `EntityManager.get_dirty_packet(sequence_num, health, energy)`: collect
entities with nonzero `pending_mask`; `None` if there are none; otherwise
build a non-view update packet with local stats, serialize, clear the dirty
flags of the collected entities only after `get_bytes`, and prepend opcode
`0x0E`. (`is_view_update` is false, so no timestamp is written.) -/
def EntityManager.get_dirty_packet (mgr : EntityManager) (sequence_num : Nat)
    (health energy : ℚ) : Except PyErr (Option (List Nat) × EntityManager) :=
  let dirty := mgr.entities.filter (fun e => 0 < e.pending_mask)
  if dirty.isEmpty then .ok (none, mgr)
  else
    let pk := UpdateArrayPacket.init sequence_num false 0
    let pk1 := pk.set_local_stats health energy
    let pk2 := dirty.foldl (fun acc e => acc.add_entity e false) pk1
    (pk2.get_bytes).map (fun payload =>
      (some (0x0E :: payload),
       ⟨mgr.entities.map (fun e => if 0 < e.pending_mask then e.clear_dirty else e),
        mgr.next_net_id⟩))

/-- `EntityManager.get_snapshot_packet(sequence_num, health, energy)`. The
source builds a view packet, sets local stats and then calls
`packet.add_entity(entity, force_spawn=True, forced_mask=snapshot_mask)` for
every stored entity; `UpdateArrayPacket.add_entity` accepts no `forced_mask`
keyword argument, so Python raises `TypeError` at the first iteration. With
no entities the loop body never runs and the packet is produced. -/
def EntityManager.get_snapshot_packet (mgr : EntityManager) (sequence_num ticks : Nat)
    (health energy : ℚ) : Except PyErr (List Nat) :=
  let pk := UpdateArrayPacket.init sequence_num true ticks
  let pk1 := pk.set_local_stats health energy
  if mgr.entities.isEmpty then (pk1.get_bytes).map (fun payload => 0x0F :: payload)
  else .error .typeError

/-! ## Standard ACK, from `src/network/udp_handler.py` -/

/-- Result of `UDPHandler.send_standard_ack`: the updated outgoing sequence
counter and the opcode/body handed to `_send` (`_pack` puts `opcode :: body`
on the wire). -/
structure AckSend where
  outgoingSequenceNumber : Nat
  opcode : Nat
  body : List Nat
deriving Repr, DecidableEq

/-- `UDPHandler.send_standard_ack(addr, sequence_num, packet_id)` given the
current `outgoingSequenceNumber`. -/
def send_standard_ack (outgoingSequenceNumber sequence_num packet_id : Nat) : AckSend :=
  let newSeq := outgoingSequenceNumber + 1
  let pkt := PacketWriter.init
  let p1 := pkt.write_int16 newSeq
  let p2 := p1.write_int16 9
  let p3 := p2.write_byte 1
  let p4 := p3.write_byte packet_id
  let p5 := p4.write_int16 sequence_num
  ⟨newSeq, 0x02, p5.get_bytes⟩

/-! ## UDP length-header stripping, from `src/network/transport/envelope.py`
and `src/network/udp_handler.py` -/

/-- The big-endian `uint16` formed by a datagram's first two bytes
(`struct.unpack(">H", data[:2])[0]`; datagram elements are bytes `< 256`). -/
def be16 (data : List Nat) : Nat := data.getD 0 0 * 256 + data.getD 1 0

/-- `UdpEnvelope.try_strip_length`. -/
def try_strip_length (datagram : List Nat) : List Nat :=
  if 3 ≤ datagram.length then
    if be16 datagram = datagram.length then datagram.drop 2 else datagram
  else datagram

/-- `UDPHandler._unpack_payload`. -/
def unpack_payload (data : List Nat) : List Nat :=
  if 3 ≤ data.length then
    if be16 data = data.length then data.drop 2 else data
  else data

/-! ## Writer-extension combinators and dirty-batch lemmas (for C4) -/

/-- `w2`'s bit stream extends `w`'s: however `w` decomposes into finished
bytes and pending bits, `w2` decomposes into the same stream followed by some
tail. -/
def Extends (w w2 : PacketWriter) : Prop :=
  ∀ bs p, WriterRep w bs p → ∃ bs2 p2 tail, WriterRep w2 bs2 p2 ∧
    allBits bs2 ++ p2 = allBits bs ++ p ++ tail

theorem extends_refl (w : PacketWriter) : Extends w w :=
  fun bs p h => ⟨bs, p, [], h, by simp⟩

theorem extends_trans {w1 w2 w3 : PacketWriter} (h12 : Extends w1 w2)
    (h23 : Extends w2 w3) : Extends w1 w3 := by
  intro bs p h
  obtain ⟨bs2, p2, t2, r2, e2⟩ := h12 bs p h
  obtain ⟨bs3, p3, t3, r3, e3⟩ := h23 bs2 p2 r2
  refine ⟨bs3, p3, t2 ++ t3, r3, ?_⟩
  rw [e3, e2]
  simp [List.append_assoc]

theorem extends_write_bits (w : PacketWriter) (v n : Nat) :
    Extends w (w.write_bits v n) := by
  intro bs p h
  obtain ⟨bs2, p2, r2, e2⟩ := write_bits_rep v n h
  exact ⟨bs2, p2, natBits v n, r2, e2⟩

/-- The data width of the fixed-mode stat compressor is always 10 bits. -/
theorem stat_bits_toNat (x : ℚ) : (COMPRESSOR_STAT.compress x 3).2.2.toNat = 10 := by
  rw [compress_bits]
  rfl

/-- The freshly created entity carries exactly
`DEFINITION ||| HEALTH ||| POS = 35`. -/
theorem create_entity_mask (mgr : EntityManager) (u t : Nat) (pos : ℚ × ℚ × ℚ) :
    ((mgr.create_entity u t pos none).1).pending_mask = 35 := by
  simp [EntityManager.create_entity, GameEntity.create, GameEntity.mark_dirty]
  decide

theorem filter_store_dirty : ∀ (l : List GameEntity) (e : GameEntity),
    (∀ x ∈ l, x.pending_mask = 0) → 0 < e.pending_mask →
    l.Pairwise (fun a b => a.net_id ≠ b.net_id) →
    (storeEntity l e).filter (fun x => 0 < x.pending_mask) = [e] := by
  intro l
  induction l with
  | nil =>
    intro e _ hd _
    simp [storeEntity, hd]
  | cons x l ih =>
    intro e hc hd hp
    have hxc : x.pending_mask = 0 := hc x (by simp)
    have hlc : ∀ y ∈ l, y.pending_mask = 0 := fun y hy => hc y (by simp [hy])
    rcases List.pairwise_cons.mp hp with ⟨hx_ne, hp2⟩
    by_cases hid : x.net_id = e.net_id
    · have hany : (x :: l).any (fun z => z.net_id = e.net_id) = true := by
        simp
        exact Or.inl hid
      have hstore : storeEntity (x :: l) e =
          e :: l.map (fun z => if z.net_id = e.net_id then e else z) := by
        unfold storeEntity
        rw [if_pos hany, List.map_cons, if_pos hid]
      have hmap : l.map (fun z => if z.net_id = e.net_id then e else z) = l := by
        conv_rhs => rw [← List.map_id l]
        apply List.map_congr_left
        intro y hy
        have hne : y.net_id ≠ e.net_id := by
          rw [← hid]
          exact (hx_ne y hy).symm
        simp [hne]
      rw [hstore, hmap, List.filter_cons]
      have hkeep : decide (0 < e.pending_mask) = true := by
        simp [hd]
      rw [if_pos (by simp [hd])]
      have hrest : l.filter (fun x => 0 < x.pending_mask) = [] := by
        apply List.filter_eq_nil_iff.mpr
        intro a ha
        simp [hlc a ha]
      rw [hrest]
    · have hstep : storeEntity (x :: l) e = x :: storeEntity l e := by
        unfold storeEntity
        by_cases hany : l.any (fun z => z.net_id = e.net_id)
        · have hany2 : (x :: l).any (fun z => z.net_id = e.net_id) = true := by
            simp at hany ⊢
            exact Or.inr hany
          rw [if_pos hany2, if_pos hany, List.map_cons, if_neg hid]
        · have hany2 : ¬ ((x :: l).any (fun z => z.net_id = e.net_id) = true) := by
            simp at hany ⊢
            exact ⟨hid, hany⟩
          rw [if_neg hany2, if_neg hany]
          simp
      rw [hstep, List.filter_cons]
      rw [if_neg (by simp [hxc])]
      exact ih e hlc hd hp2

theorem cleared_all_zero (l : List GameEntity) :
    ∀ x ∈ l.map (fun y => if 0 < y.pending_mask then y.clear_dirty else y),
      x.pending_mask = 0 := by
  intro x hx
  simp only [List.mem_map] at hx
  obtain ⟨y, _, rfl⟩ := hx
  by_cases hy : 0 < y.pending_mask
  · simp [hy, GameEntity.clear_dirty]
  · simp [hy]
    omega

/-- `get_dirty_packet` on a manager with no dirty entities returns `None` and
leaves the manager unchanged. -/
theorem dirty_packet_none (mgr : EntityManager)
    (hall : ∀ x ∈ mgr.entities, x.pending_mask = 0) (seq : Nat) (h e : ℚ) :
    mgr.get_dirty_packet seq h e = .ok (none, mgr) := by
  unfold EntityManager.get_dirty_packet
  have hfil : mgr.entities.filter (fun x => 0 < x.pending_mask) = [] := by
    apply List.filter_eq_nil_iff.mpr
    intro a ha
    simp [hall a ha]
  rw [hfil]
  simp

/-- The value of the 10 bits at byte `bytePos`, bit `bitPos` of a byte
buffer, read with `PacketReader.read_bits`. -/
def bitsAt (bs : List Nat) (bytePos bitPos n : Nat) : Nat :=
  ((⟨bs, bytePos, bitPos⟩ : PacketReader).read_bits n).1

/-- Serializing an entity with mask 35 (`DEFINITION ||| POS ||| HEALTH`)
succeeds and only appends bits after the fixed header
`net_id (32) / is_manned (1) / mask (10) / bank selector (16)`. -/
theorem serialize_mask35 (w : PacketWriter) (ent : GameEntity)
    (hmask : ent.pending_mask = 35) :
    ∃ w2, serialize w ent false = .ok w2 ∧
      Extends ((((w.write_bits (ent.net_id &&& 0xFFFFFFFF) 32).write_bits
        (if ent.is_manned then 1 else 0) 1).write_bits 35 10).write_bits 0
          BANK_SELECTOR_BITS) w2 := by
  have hdef : ¬ ((35 : Nat) &&& UpdateMask.DEFINITION = 0) := by decide
  have hpos : ¬ ((35 : Nat) &&& UpdateMask.POS = 0) := by decide
  have hvel : (35 : Nat) &&& UpdateMask.VEL = 0 := by decide
  have hrot : (35 : Nat) &&& UpdateMask.ROT = 0 := by decide
  have hspin : (35 : Nat) &&& UpdateMask.SPIN = 0 := by decide
  have hhp : ¬ ((35 : Nat) &&& UpdateMask.HEALTH = 0) := by decide
  have hen : (35 : Nat) &&& UpdateMask.ENERGY = 0 := by decide
  have how : (35 : Nat) &&& UpdateMask.OWNER = 0 := by decide
  simp only [serialize, hmask, Bool.false_eq_true, if_false, ne_eq, hdef, hpos, hvel, hrot,
    hspin, hhp, hen, how, not_false_eq_true, ite_true, ite_false, not_true_eq_false,
    PacketWriter.write_int32, PacketWriter.write_bool, writeVec]
  refine ⟨_, rfl, ?_⟩
  refine extends_trans ?_ (extends_write_bits _ _ _)
  refine extends_trans ?_ (extends_write_bits _ _ _)
  refine extends_trans ?_ (extends_write_bits _ _ _)
  refine extends_trans ?_ (extends_write_bits _ _ _)
  refine extends_trans ?_ (extends_write_bits _ _ _)
  refine extends_trans ?_ (extends_write_bits _ _ _)
  by_cases h37 : ent.unit_type = 37
  · simp only [h37, ite_true]
    refine extends_trans ?_ (extends_write_bits _ _ _)
    refine extends_trans ?_ (extends_write_bits _ _ _)
    refine extends_trans ?_ (extends_write_bits _ _ _)
    refine extends_trans ?_ (extends_write_bits _ _ _)
    exact extends_write_bits _ _ _
  · simp only [h37, ite_false]
    by_cases h19 : ent.unit_type = 19
    · simp only [h19, ite_true]
      refine extends_trans ?_ (extends_write_bits _ _ _)
      refine extends_trans ?_ (extends_write_bits _ _ _)
      refine extends_trans ?_ (extends_write_bits _ _ _)
      exact extends_write_bits _ _ _
    · simp only [h19, ite_false]
      refine extends_trans ?_ (extends_write_bits _ _ _)
      refine extends_trans ?_ (extends_write_bits _ _ _)
      exact extends_write_bits _ _ _

/-- Serializing the one-entity dirty batch after the local-stats block and
count: the packet bytes carry the 10-bit mask `35` at bit offset 99
(byte 12, bit 3). -/
theorem dirty_payload_spec (ent : GameEntity) (hmask : ent.pending_mask = 35)
    (seq : Nat) (sh se : ℚ) :
    ∃ w2, serializeAll ((((((PacketWriter.init.write_bits (seq &&& 0xFFFFFFFF) 32).write_bits
        1 1).write_bits 0 5).write_bits ((COMPRESSOR_STAT.compress sh 3).2.1.toNat)
        10).write_bits ((COMPRESSOR_STAT.compress se 3).2.1.toNat) 10).write_bits 1 8)
      [(ent, false)] = .ok w2 ∧
      bitsAt w2.get_bytes 12 3 10 = 35 := by
  set rhv := (COMPRESSOR_STAT.compress sh 3).2.1.toNat with hrhv
  set rev := (COMPRESSOR_STAT.compress se 3).2.1.toNat with hrev
  set mb := (if ent.is_manned then (1 : Nat) else 0) with hmb
  set W6 := (((((PacketWriter.init.write_bits (seq &&& 0xFFFFFFFF) 32).write_bits
    1 1).write_bits 0 5).write_bits rhv 10).write_bits rev 10).write_bits 1 8 with hW6
  obtain ⟨w2, hser, hext⟩ := serialize_mask35 W6 ent hmask
  refine ⟨w2, ?_, ?_⟩
  · simp only [serializeAll, hser]
    rfl
  · have hfold : ([(seq &&& 0xFFFFFFFF, 32), (1, 1), (0, 5), (rhv, 10), (rev, 10), (1, 8),
        (ent.net_id &&& 0xFFFFFFFF, 32), (mb, 1), (35, 10),
        (0, BANK_SELECTOR_BITS)] : List (Nat × Nat)).foldl
          (fun w q => w.write_bits q.1 q.2) PacketWriter.init =
        (((W6.write_bits (ent.net_id &&& 0xFFFFFFFF) 32).write_bits mb 1).write_bits
          35 10).write_bits 0 BANK_SELECTOR_BITS := by
      simp only [List.foldl_cons, List.foldl_nil, hW6]
    obtain ⟨bsA, pA, repA, eqA⟩ := writePairs_rep
      [(seq &&& 0xFFFFFFFF, 32), (1, 1), (0, 5), (rhv, 10), (rev, 10), (1, 8),
        (ent.net_id &&& 0xFFFFFFFF, 32), (mb, 1), (35, 10), (0, BANK_SELECTOR_BITS)]
      PacketWriter.init [] [] writerRep_init
    rw [hfold] at repA
    have hnil : allBits ([] : List Nat) = [] := rfl
    simp only [List.map_cons, List.map_nil, List.flatten_cons, List.flatten_nil,
      List.append_nil, hnil, List.nil_append] at eqA
    obtain ⟨bsF, pF, tail, repF, eqF⟩ := hext bsA pA repA
    have hstream : ∃ rest : List Nat, allBits w2.get_bytes =
        (natBits (seq &&& 0xFFFFFFFF) 32 ++ natBits 1 1 ++ natBits 0 5 ++ natBits rhv 10 ++
         natBits rev 10 ++ natBits 1 8 ++ natBits (ent.net_id &&& 0xFFFFFFFF) 32 ++
         natBits mb 1) ++ (natBits 35 10 ++ rest) := by
      rcases get_bytes_rep repF with hg | ⟨hpF, hg⟩
      · refine ⟨natBits 0 BANK_SELECTOR_BITS ++ tail ++ List.replicate (8 - pF.length) 0, ?_⟩
        rw [hg, eqF, eqA]
        simp [List.append_assoc]
      · refine ⟨natBits 0 BANK_SELECTOR_BITS ++ tail, ?_⟩
        subst hpF
        rw [hg]
        have heqF2 := eqF
        rw [eqA] at heqF2
        simp only [List.append_nil] at heqF2
        rw [heqF2]
        simp [List.append_assoc]
    obtain ⟨rest, hstr⟩ := hstream
    have hXlen : (natBits (seq &&& 0xFFFFFFFF) 32 ++ natBits 1 1 ++ natBits 0 5 ++
        natBits rhv 10 ++ natBits rev 10 ++ natBits 1 8 ++
        natBits (ent.net_id &&& 0xFFFFFFFF) 32 ++ natBits mb 1).length = 99 := by
      simp [natBits_length]
    have habl : (allBits w2.get_bytes).length = 8 * w2.get_bytes.length :=
      allBits_length _
    have htotal : 109 ≤ 8 * w2.get_bytes.length := by
      have := congrArg List.length hstr
      rw [habl] at this
      simp only [List.length_append, natBits_length] at this
      omega
    have hdrop : (allBits w2.get_bytes).drop 99 = natBits 35 10 ++ rest := by
      rw [hstr, ← hXlen]
      exact List.drop_left _ _
    have htake : ((allBits w2.get_bytes).drop 99).take 10 = natBits 35 10 := by
      rw [hdrop]
      exact List.take_left' (natBits_length 35 10)
    have hread := read_bits_spec w2.get_bytes 10 12 3 (by norm_num) (by omega)
    unfold bitsAt
    rw [hread]
    norm_num
    rw [htake, bitsToNat_natBits]
    decide

/-! ## Claim theorems -/

/-- C1: for every quantization profile built by `configure` and every value
`v` in `[min_value, max_value]`, decompressing the output of `compress v`
(with the priority and bit width `compress` reports) lands within one
quantization step, `range / (2 ^ bits - 2)`, of `v`; and `compress 0` emits
raw value `0`, which `decompress` maps back to exactly `0`. The hypothesis
`2 ≤ bits` states that the profile's data width makes the step
`range / (2 ^ bits - 2)` well defined (its denominator positive). -/
theorem C1_quantized_float_roundtrip (h : Nat) (t : Int) (m r : ℚ) (p : Int) (v : ℚ)
    (hv1 : (configure h t m r).min_value ≤ v)
    (hv2 : v ≤ (configure h t m r).max_value)
    (hbits : 2 ≤ ((configure h t m r).compress v p).2.2) :
    (|(configure h t m r).decompress ((configure h t m r).compress v p).1
        ((configure h t m r).compress v p).2.1 - v| ≤
      r / ((2 : ℚ) ^ (((configure h t m r).compress v p).2.2.toNat) - 2)) ∧
    ((configure h t m r).compress 0 p).2.1 = 0 ∧
    (configure h t m r).decompress ((configure h t m r).compress 0 p).1
      ((configure h t m r).compress 0 p).2.1 = 0 := by
  refine ⟨?_, ?_, ?_⟩
  · rw [compress_bits] at hbits ⊢
    have hclose := compress_decompress_close (configure h t m r) p v
      (by simp [configure]) hv1 hv2 hbits
    have hrange : (configure h t m r).range = r := by simp [configure]
    rwa [hrange] at hclose
  · rw [compress_zero]
  · rw [compress_zero]
    dsimp only
    exact decompress_zero _ _

/-- Witness for C1 at the fixed-mode health profile
`configure 10 0 1.0 1.0` (`GLOBAL_CONFIGS[5]`, i.e. `COMPRESSOR_STAT`):
compressing `1.0` and decompressing lands within `1/1022` of `1.0`
(`denom = 2^10 - 2 = 1022`), and `0.0` round-trips exactly. -/
theorem C1_witness :
    (|(configure 10 0 1 1).decompress ((configure 10 0 1 1).compress 1 3).1
        ((configure 10 0 1 1).compress 1 3).2.1 - 1| ≤ 1 / 1022) ∧
    ((configure 10 0 1 1).compress 0 3).2.1 = 0 ∧
    (configure 10 0 1 1).decompress ((configure 10 0 1 1).compress 0 3).1
      ((configure 10 0 1 1).compress 0 3).2.1 = 0 := by
  have hbits : ((configure 10 0 1 1).compress (1 : ℚ) 3).2.2 = 10 := by
    rw [compress_bits]
    norm_num [TranslationConfig.bitsFor, configure]
  have h := C1_quantized_float_roundtrip 10 0 1 1 3 1
    (by norm_num [configure]) (by norm_num [configure]) (by rw [hbits]; norm_num)
  refine ⟨?_, h.2.1, h.2.2⟩
  have h1 := h.1
  rw [hbits] at h1
  have ht : Int.toNat 10 = 10 := rfl
  rw [ht] at h1
  norm_num at h1
  exact h1

/-- C2: writing any finite sequence of `(value, width)` pairs with
`0 ≤ value < 2 ^ width` via `write_bits`, finalizing with `get_bytes`, and
reading the widths back in order with `read_bits` returns every value
unchanged, including across mixed widths. -/
theorem C2_write_read_roundtrip (ps : List (Nat × Nat)) (h : ∀ p ∈ ps, p.1 < 2 ^ p.2) :
    readWidths (PacketReader.init (writePairs ps).get_bytes) (ps.map Prod.snd) =
      ps.map Prod.fst := by
  obtain ⟨pad, hpad⟩ := writePairs_get_bytes ps
  have hlen : (allBits (writePairs ps).get_bytes).length =
      8 * (writePairs ps).get_bytes.length := allBits_length _
  have hflen : ((ps.map (fun q => natBits q.1 q.2)).flatten).length = (ps.map Prod.snd).sum :=
    flatten_natBits_length ps
  have hsum_le : 0 + (ps.map Prod.snd).sum ≤ 8 * (writePairs ps).get_bytes.length := by
    rw [← hlen, hpad, List.length_append, hflen]
    omega
  have htake : ((allBits (writePairs ps).get_bytes).drop 0).take (ps.map Prod.snd).sum =
      (ps.map (fun q => natBits q.1 q.2)).flatten := by
    rw [List.drop_zero, hpad, ← hflen]
    exact List.take_left _ _
  have hspec := readWidths_spec ps (writePairs ps).get_bytes 0 h hsum_le htake
  norm_num at hspec
  exact hspec

/-- Witness for C2 on the mixed-width sequence
`[(5, 3), (1, 1), (300, 9)]`. -/
theorem C2_witness :
    readWidths (PacketReader.init (writePairs [(5, 3), (1, 1), (300, 9)]).get_bytes)
      [3, 1, 9] = [5, 1, 300] := by
  have h := C2_write_read_roundtrip [(5, 3), (1, 1), (300, 9)] (by decide)
  simpa using h

/-- C3 (code bug): on any manager holding at least one live entity — here the
manager obtained by `create_entity(5, 1, (80, 80, 25))` on a fresh manager —
`get_snapshot_packet` raises `TypeError` instead of returning a full-state
packet, because it passes a `forced_mask` keyword argument that
`UpdateArrayPacket.add_entity` does not accept. -/
theorem C3_snapshot_packet_type_error :
    (EntityManager.empty.create_entity 5 1 (80, 80, 25) none).2.get_snapshot_packet
      1 0 1 1 = .error .typeError := by
  unfold EntityManager.get_snapshot_packet EntityManager.create_entity
  simp [storeEntity, EntityManager.empty]

/-- C5 (code bug): serializing an entity whose dirty mask has the Spin bit
(bit 4) set raises `AttributeError` — `GameEntity` has no `spin` field — so
no Spin payload (nor anything after it) is emitted. -/
theorem C5_serialize_spin_attribute_error :
    serialize PacketWriter.init
      { net_id := 1, unit_type := 0, team_id := 0, pos := (0, 0, 0), vel := (0, 0, 0),
        rot := (0, 0, 0), health := 1, energy := 1, is_manned := true,
        pending_mask := UpdateMask.SPIN } false = .error .attributeError := by
  rfl

/-- Counterexample for C6: the ACK body is 8 bytes
(2 + 2 + 1 + 1 + 2), not 9 as the claim states — 9 is the length of the wire
datagram including the opcode byte, which is also what the literal length
field counts. -/
theorem C6_counterexample :
    (send_standard_ack 0 9 51).body.length = 8 ∧
      (send_standard_ack 0 9 51).body.length ≠ 9 := by
  dsimp only [send_standard_ack]
  rw [show PacketWriter.init = (⟨[], 0, 0⟩ : PacketWriter) from rfl, write_int16_aligned,
    write_int16_aligned, write_byte_aligned, write_byte_aligned, write_int16_aligned,
    get_bytes_aligned]
  norm_num

/-- C6 (amended): every `send_standard_ack` sends opcode `0x02` with a body of
exactly 8 bytes (9 wire bytes with the opcode): 2-byte outgoing sequence
(incremented by one on every send), 2-byte literal length field holding 9,
1-byte sub-command `1`, 1-byte acknowledged opcode, and the 2-byte echoed
request sequence. -/
theorem C6_ack_layout (state seq pid : Nat) :
    send_standard_ack state seq pid =
      ⟨state + 1, 0x02,
        [(state + 1) / 256 % 256, (state + 1) % 256, 0, 9, 1, pid % 256,
         seq / 256 % 256, seq % 256]⟩ := by
  dsimp only [send_standard_ack]
  rw [show PacketWriter.init = (⟨[], 0, 0⟩ : PacketWriter) from rfl, write_int16_aligned,
    write_int16_aligned, write_byte_aligned, write_byte_aligned, write_int16_aligned,
    get_bytes_aligned]
  norm_num

/-- Counterexample for C7: a 4096-character ASCII string does not round-trip:
its length field is 4097, the reader's sanity check `length > 4096` rejects
it and returns the empty string. -/
theorem C7_counterexample :
    ((PacketReader.init ((PacketWriter.init.write_string
      (List.replicate 4096 97)).get_bytes)).read_string).1 ≠ List.replicate 4096 97 := by
  have hch : ∀ c ∈ List.replicate 4096 97, c < 128 := by
    intro c hc
    have := List.eq_of_mem_replicate hc
    omega
  have hbytes := write_string_bytes (List.replicate 4096 97) hch
  rw [hbytes]
  have hl : (List.replicate 4096 (97 : Nat)).length = 4096 := List.length_replicate 4096 97
  rw [hl]
  have hcons : ([(4096 + 1) / 256 % 256, (4096 + 1) % 256] : List Nat) ++
      List.replicate 4096 97 ++ [0] =
      16 :: 1 :: (List.replicate 4096 97 ++ [0]) := by norm_num
  rw [hcons]
  unfold PacketReader.read_string PacketReader.init
  rw [read_int16_head]
  norm_num

/-- C7 (amended): for every ASCII string of at most 4095 characters,
`write_string` emits a big-endian `uint16` byte count of `len + 1` (counting
the mandatory trailing NUL), the ASCII bytes, and the NUL; `read_string` on
that encoding strips the NUL and returns the string unchanged. (The bound is
needed: at 4096 characters the field value 4097 fails the reader's
`length > 4096` sanity check — see the counterexample. For still longer
strings the 16-bit field wraps modulo `2^16`, so the reader may instead
accept a wrapped length and return a prefix.) -/
theorem C7_string_roundtrip (s : List Nat) (hascii : ∀ c ∈ s, c < 128)
    (hlen : s.length ≤ 4095) :
    (PacketWriter.init.write_string s).get_bytes =
      [(s.length + 1) / 256 % 256, (s.length + 1) % 256] ++ s ++ [0] ∧
    ((PacketReader.init ((PacketWriter.init.write_string s).get_bytes)).read_string).1 = s := by
  refine ⟨write_string_bytes s hascii, ?_⟩
  rw [read_string_of_write s hascii hlen]

/-- Witness for C7 on the string "hi" (`[104, 105]`). -/
theorem C7_witness :
    (PacketWriter.init.write_string [104, 105]).get_bytes = [0, 3, 104, 105, 0] ∧
    ((PacketReader.init ((PacketWriter.init.write_string [104, 105]).get_bytes)).read_string).1
      = [104, 105] := by
  have h := C7_string_roundtrip [104, 105] (by decide) (by decide)
  refine ⟨?_, h.2⟩
  rw [h.1]
  rfl

/-- Counterexample for C8: a 2-byte datagram whose first two bytes form the
`uint16` 2 — equal to its total length — is *not* stripped, because both
`try_strip_length` and `_unpack_payload` additionally require at least 3
bytes. The claim's "exactly when" fails on this input. -/
theorem C8_counterexample :
    be16 [0, 2] = ([0, 2] : List Nat).length ∧ unpack_payload [0, 2] = [0, 2] ∧
      try_strip_length [0, 2] = [0, 2] := by
  decide

/-- C8 (amended): `_unpack_payload` and `UdpEnvelope.try_strip_length`
implement the same rule; the 2-byte length header is detected and stripped
exactly when the datagram is at least 3 bytes long **and** the big-endian
`uint16` of its first two bytes equals the datagram length; otherwise the
datagram passes through unchanged. -/
theorem C8_length_header_strip (data : List Nat) :
    unpack_payload data = try_strip_length data ∧
    try_strip_length data =
      (if 3 ≤ data.length ∧ be16 data = data.length then data.drop 2 else data) := by
  refine ⟨rfl, ?_⟩
  unfold try_strip_length
  by_cases h3 : 3 ≤ data.length <;> by_cases hb : be16 data = data.length <;>
    simp [h3, hb]

/-- C9: a `read_bits` call asking for more bits than remain between the
cursor and the end of the buffer returns 0 (not an error), and every
subsequent read from the resulting reader also returns 0. -/
theorem C9_read_past_end_zero (r : PacketReader) (n : Nat) (hbit : r.bitPos < 8)
    (hover : 8 * r.data.length < 8 * r.bytePos + r.bitPos + n) :
    (r.read_bits n).1 = 0 ∧ ∀ ws, ∀ v ∈ readWidths (r.read_bits n).2 ws, v = 0 := by
  cases n with
  | zero =>
    refine ⟨rfl, ?_⟩
    have hend : r.data.length ≤ r.bytePos := by omega
    have h0 : r.read_bits 0 = (0, r) := rfl
    rw [h0]
    exact readWidths_past_end r hend
  | succ n =>
    have h := readBitsAux_overrun (n + 1) r 0 (by omega) hbit hover
    exact ⟨h.1, readWidths_past_end _ h.2.2⟩

/-- Witness for C9: reading 9 bits from a 1-byte buffer returns 0, and
subsequent reads of 3 and 5 bits return 0 as well. -/
theorem C9_witness :
    ((PacketReader.init [171]).read_bits 9).1 = 0 ∧
      readWidths ((PacketReader.init [171]).read_bits 9).2 [3, 5] = [0, 0] := by
  refine ⟨(C9_read_past_end_zero (PacketReader.init [171]) 9 (by decide) (by decide)).1, ?_⟩
  decide

/-- C10: for every Python int `value` (negative and oversized included) and
width `n`, `write_bits(value, n)` produces exactly the same writer state as
`write_bits(value mod 2^n, n)`: the writer masks to the low `n` bits by
construction. -/
theorem C10_write_bits_masks (w : PacketWriter) (value : Int) (n : Nat) :
    w.write_bits_int value n = w.write_bits (value % ((2 : Int) ^ n)).toNat n :=
  write_bits_int_eq_mod w value n

/-- `write_int32` is `write_bits` of the masked value. -/
theorem write_int32_eq (w : PacketWriter) (v : Nat) :
    w.write_int32 v = w.write_bits (v &&& 0xFFFFFFFF) 32 := rfl

/-- The packet state built by `get_dirty_packet` before serialization:
initialize with the sequence number, set local stats, queue the one dirty
entity. -/
theorem upk_pk2_eq (seq : Nat) (sh se : ℚ) (e : GameEntity) :
    ((UpdateArrayPacket.init seq false 0).set_local_stats sh se).add_entity e false =
      ⟨PacketWriter.init.write_int32 seq, seq, [(e, false)], some (sh, se)⟩ := by
  simp only [UpdateArrayPacket.init, UpdateArrayPacket.set_local_stats,
    UpdateArrayPacket.add_entity, Bool.false_eq_true, if_false, List.nil_append]

/-- `UpdateArrayPacket.get_bytes` on a packet with local stats set: presence
bit, 5 reserved bits, the two quantized stats, the 8-bit entity count, then
the serializer loop. -/
theorem upk_get_bytes_eq (w : PacketWriter) (sq : Nat)
    (ents : List (GameEntity × Bool)) (sh se : ℚ) :
    (⟨w, sq, ents, some (sh, se)⟩ : UpdateArrayPacket).get_bytes =
      (serializeAll (((((w.write_bits 1 1).write_bits 0 5).write_bits
        ((COMPRESSOR_STAT.compress sh 3).2.1.toNat)
        ((COMPRESSOR_STAT.compress sh 3).2.2.toNat)).write_bits
        ((COMPRESSOR_STAT.compress se 3).2.1.toNat)
        ((COMPRESSOR_STAT.compress se 3).2.2.toNat)).write_bits ents.length 8)
        ents).map (fun wf => wf.get_bytes) := by
  simp only [UpdateArrayPacket.get_bytes, PacketWriter.write_bool, if_true]

/-- `get_dirty_packet` when exactly one entity `e` is dirty: the serializer
runs on the singleton batch after the sequence/stats/count prefix, and the
returned manager has every collected dirty flag cleared. -/
theorem dirty_packet_single (mgr : EntityManager) (e : GameEntity) (seq : Nat)
    (sh se : ℚ)
    (hfil : mgr.entities.filter (fun x => 0 < x.pending_mask) = [e]) :
    mgr.get_dirty_packet seq sh se =
      ((serializeAll
        ((((((PacketWriter.init.write_bits (seq &&& 0xFFFFFFFF) 32).write_bits
          1 1).write_bits 0 5).write_bits ((COMPRESSOR_STAT.compress sh 3).2.1.toNat)
          ((COMPRESSOR_STAT.compress sh 3).2.2.toNat)).write_bits
          ((COMPRESSOR_STAT.compress se 3).2.1.toNat)
          ((COMPRESSOR_STAT.compress se 3).2.2.toNat)).write_bits 1 8)
        [(e, false)]).map (fun wf => wf.get_bytes)).map (fun payload =>
          (some (0x0E :: payload),
           ⟨mgr.entities.map (fun x => if 0 < x.pending_mask then x.clear_dirty else x),
            mgr.next_net_id⟩)) := by
  simp only [EntityManager.get_dirty_packet]
  rw [hfil]
  simp only [List.isEmpty_cons, Bool.false_eq_true, if_false]
  simp only [List.foldl_cons, List.foldl_nil]
  rw [upk_pk2_eq]
  rw [upk_get_bytes_eq]
  rw [write_int32_eq]
  rw [List.length_singleton]

/-- C4: on a manager whose entities are all clean (and have distinct net ids,
as the manager's dict invariant guarantees), `create_entity` followed by
`get_dirty_packet` yields an `0x0E` packet whose single record carries the
10-bit mask `DEFINITION ||| HEALTH ||| POS` at bit offset 99 (byte 12,
bit 3 — after the 32-bit sequence, 1+5-bit stats header, two 10-bit stats,
8-bit count, 32-bit net id and 1-bit is_manned), and a second
`get_dirty_packet` call with no intervening mutation returns `none`: the
dirty flags are cleared only after the packet bytes are produced. -/
theorem C4_create_then_dirty_packet (mgr : EntityManager) (u t : Nat)
    (pos : ℚ × ℚ × ℚ) (seq seq2 : Nat) (sh se sh2 se2 : ℚ)
    (hclean : ∀ x ∈ mgr.entities, x.pending_mask = 0)
    (hkeys : mgr.entities.Pairwise (fun a b => a.net_id ≠ b.net_id)) :
    ∃ (payload : List Nat) (mgr2 : EntityManager),
      (mgr.create_entity u t pos none).2.get_dirty_packet seq sh se =
        .ok (some (0x0E :: payload), mgr2) ∧
      bitsAt payload 12 3 10 =
        (UpdateMask.DEFINITION ||| UpdateMask.HEALTH ||| UpdateMask.POS) ∧
      mgr2.get_dirty_packet seq2 sh2 se2 = .ok (none, mgr2) := by
  set ent := (mgr.create_entity u t pos none).1 with hent
  set mgr1 := (mgr.create_entity u t pos none).2 with hmgr1
  have hmask : ent.pending_mask = 35 := create_entity_mask mgr u t pos
  have hents : mgr1.entities = storeEntity mgr.entities ent := rfl
  have hdirty : mgr1.entities.filter (fun x => 0 < x.pending_mask) = [ent] := by
    rw [hents]
    exact filter_store_dirty mgr.entities ent hclean (by rw [hmask]; norm_num) hkeys
  obtain ⟨w2, hser2, hbits⟩ := dirty_payload_spec ent hmask seq sh se
  refine ⟨w2.get_bytes,
    ⟨mgr1.entities.map (fun e => if 0 < e.pending_mask then e.clear_dirty else e),
      mgr1.next_net_id⟩, ?_, ?_, ?_⟩
  · rw [dirty_packet_single mgr1 ent seq sh se hdirty, stat_bits_toNat,
      stat_bits_toNat, hser2]
    rfl
  · rw [hbits]
    decide
  · exact dirty_packet_none _ (cleared_all_zero mgr1.entities) seq2 sh2 se2

/-- Witness for C4: the fresh manager, `create_entity(5, 1, (80,80,25))`,
then two `get_dirty_packet` calls. -/
theorem C4_witness :
    (∀ x ∈ EntityManager.empty.entities, x.pending_mask = 0) ∧
    EntityManager.empty.entities.Pairwise (fun a b => a.net_id ≠ b.net_id) ∧
    ∃ (payload : List Nat) (mgr2 : EntityManager),
      (EntityManager.empty.create_entity 5 1 (80, 80, 25) none).2.get_dirty_packet
          1 1 1 = .ok (some (0x0E :: payload), mgr2) ∧
      bitsAt payload 12 3 10 =
        (UpdateMask.DEFINITION ||| UpdateMask.HEALTH ||| UpdateMask.POS) ∧
      mgr2.get_dirty_packet 2 1 1 = .ok (none, mgr2) := by
  refine ⟨by simp [EntityManager.empty], by simp [EntityManager.empty], ?_⟩
  exact C4_create_then_dirty_packet EntityManager.empty 5 1 (80, 80, 25) 1 2 1 1 1 1
    (by simp [EntityManager.empty]) (by simp [EntityManager.empty])

end WulfForge
